import Mathlib

/-!
# Red Specter AI Usage Watchdog — verification development

Shallow embedding of the agent (`src/agent/redspecter_ai_usage_watchdog.py`)
and the log viewer (`src/tools/watchdog_view.py`), with proofs about the
signature matcher, the deduplicated scan cycle, the JSONL event codec, and
the log aggregator.

Conventions:
* Python dict fields that can be absent or `None` become `Option`.
* Python exceptions become `Option`/`Except`-shaped results; a `try/except`
  in the source becomes an explicit handler on those values.
* The `json` module is modelled by an executable printer (`dumpsV`, matching
  `json.dumps(..., ensure_ascii=False)` with default separators) and an
  executable parser (`jsonParse`, matching `json.loads`), both defined on
  character lists.
* `str.lower` is modelled ASCII-only (`Char.toLower`); every claim uses the
  same lowering on both sides, so nothing in the claims depends on the
  difference on non-ASCII letters.
-/

namespace Watchdog

/-! ## JSON values

The value space of Python's `json` module, as needed here.  A number lexeme
with a fraction or exponent (`1.5`, `2e3`) or one of the non-standard
constants (`NaN`, `Infinity`, `-Infinity`) is loaded by Python as a float;
we keep its raw lexeme, since no part of the watchdog ever computes with
such a value. -/

inductive JVal where
  | jnull : JVal
  | jbool : Bool → JVal
  | jint : Int → JVal
  | jfloat : String → JVal
  | jstr : String → JVal
  | jarr : List JVal → JVal
  | jobj : List (String × JVal) → JVal
deriving Repr

mutual

def JVal.beq : JVal → JVal → Bool
  | .jnull, .jnull => true
  | .jbool a, .jbool b => a == b
  | .jint a, .jint b => a == b
  | .jfloat a, .jfloat b => a == b
  | .jstr a, .jstr b => a == b
  | .jarr a, .jarr b => JVal.beqList a b
  | .jobj a, .jobj b => JVal.beqMembers a b
  | _, _ => false

def JVal.beqList : List JVal → List JVal → Bool
  | [], [] => true
  | a :: as', b :: bs' => JVal.beq a b && JVal.beqList as' bs'
  | _, _ => false

def JVal.beqMembers : List (String × JVal) → List (String × JVal) → Bool
  | [], [] => true
  | (k, v) :: as', (k', v') :: bs' => k == k' && JVal.beq v v' && JVal.beqMembers as' bs'
  | _, _ => false

end

/-! ## The printer: `json.dumps(event, ensure_ascii=False)`

Default separators: `", "` between items, `": "` after keys.  Strings are
escaped as CPython's `py_encode_basestring` does with `ensure_ascii=False`:
`\"`, `\\`, the shorthands `\b \f \n \r \t`, `\u00xx` for the remaining
control characters, and every character from `0x20` on verbatim. -/

def digitChar (n : Nat) : Char := Char.ofNat (48 + n)

/-- Lowercase hex digit, as produced by `"\u%04x" % i`. -/
def hexChar (n : Nat) : Char :=
  if n < 10 then Char.ofNat (48 + n) else Char.ofNat (87 + n)

/-- Decimal digits of `n`, most significant first, prepended to `acc`
(the digits of `int.__repr__`). -/
def natChars (n : Nat) (acc : List Char) : List Char :=
  if n < 10 then digitChar n :: acc
  else natChars (n / 10) (digitChar (n % 10) :: acc)
termination_by n
decreasing_by omega

/-- `repr` of a Python int: optional minus sign, then decimal digits. -/
def intChars (i : Int) : List Char :=
  if i < 0 then '-' :: natChars i.natAbs [] else natChars i.natAbs []

/-- One character of a JSON string, escaped as `json.dumps` escapes it. -/
def escChar (c : Char) : List Char :=
  if c = '"' then ['\\', '"']
  else if c = '\\' then ['\\', '\\']
  else if c = Char.ofNat 8 then ['\\', 'b']
  else if c = Char.ofNat 12 then ['\\', 'f']
  else if c = '\n' then ['\\', 'n']
  else if c = '\r' then ['\\', 'r']
  else if c = '\t' then ['\\', 't']
  else if c.toNat < 32 then
    ['\\', 'u', '0', '0', hexChar (c.toNat / 16), hexChar (c.toNat % 16)]
  else [c]

def escList : List Char → List Char
  | [] => []
  | c :: cs => escChar c ++ escList cs

/-- A dumped JSON string: quote, escaped body, quote. -/
def strChars (s : String) : List Char := '"' :: (escList s.data ++ ['"'])

mutual

def dumpsV : JVal → List Char
  | .jnull => ['n', 'u', 'l', 'l']
  | .jbool true => ['t', 'r', 'u', 'e']
  | .jbool false => ['f', 'a', 'l', 's', 'e']
  | .jint n => intChars n
  | .jfloat lex => lex.data
  | .jstr s => strChars s
  | .jarr [] => ['[', ']']
  | .jarr (x :: xs) => '[' :: (dumpsV x ++ dumpsTailE xs ++ [']'])
  | .jobj [] => ['{', '}']
  | .jobj ((k, v) :: ms) =>
      '{' :: (strChars k ++ ':' :: ' ' :: dumpsV v ++ dumpsTailM ms ++ ['}'])

def dumpsTailE : List JVal → List Char
  | [] => []
  | x :: xs => ',' :: ' ' :: (dumpsV x ++ dumpsTailE xs)

def dumpsTailM : List (String × JVal) → List Char
  | [] => []
  | (k, v) :: ms => ',' :: ' ' :: (strChars k ++ ':' :: ' ' :: dumpsV v ++ dumpsTailM ms)

end

/-- `json.dumps(v, ensure_ascii=False)`. -/
def jsonDumps (v : JVal) : String := ⟨dumpsV v⟩

/-! ## The parser: `json.loads`

CPython's decoder: JSON whitespace is `[ \t\n\r]`; strings reject raw
control characters (strict mode) and accept the escapes
`\" \\ \/ \b \f \n \r \t \uXXXX` (with surrogate-pair combination);
numbers follow `(-?(0|[1-9]\d*))(\.\d+)?([eE][-+]?\d+)?`, becoming an int
exactly when fraction and exponent are absent; `NaN`, `Infinity` and
`-Infinity` are accepted as float constants; objects are built as Python
dicts, a duplicated key overwriting the value at its first position.

A `\uXXXX` escape denoting a lone surrogate produces a Python string that
has no counterpart in Lean's `String` (Lean characters are Unicode scalar
values); the model maps such input to a parse failure. -/

def isJsonWs (c : Char) : Bool := c = ' ' || c = '\t' || c = '\n' || c = '\r'

def wsSkip (cs : List Char) : List Char := cs.dropWhile isJsonWs

def isDigitCh (c : Char) : Bool := 48 ≤ c.toNat && c.toNat ≤ 57

def hexv (c : Char) : Option Nat :=
  if 48 ≤ c.toNat ∧ c.toNat ≤ 57 then some (c.toNat - 48)
  else if 97 ≤ c.toNat ∧ c.toNat ≤ 102 then some (c.toNat - 87)
  else if 65 ≤ c.toNat ∧ c.toNat ≤ 70 then some (c.toNat - 55)
  else none

def hex4 (a b c d : Char) : Option Nat := do
  let va ← hexv a
  let vb ← hexv b
  let vc ← hexv c
  let vd ← hexv d
  pure (((va * 16 + vb) * 16 + vc) * 16 + vd)

/-- Decode a single-character escape (`BACKSLASH` table of the decoder). -/
def escDecode (e : Char) : Option Char :=
  if e = '"' then some '"'
  else if e = '\\' then some '\\'
  else if e = '/' then some '/'
  else if e = 'b' then some (Char.ofNat 8)
  else if e = 'f' then some (Char.ofNat 12)
  else if e = 'n' then some '\n'
  else if e = 'r' then some '\r'
  else if e = 't' then some '\t'
  else none

/-- Make a `Char` from a code point, failing on surrogates and overflow. -/
def charOf? (n : Nat) : Option Char :=
  if h : n.isValidChar then some ⟨⟨n, by
    rcases h with h | ⟨h1, h2⟩
    · omega
    · omega⟩, h⟩ else none

/-- One decoded unit of a JSON string body: the closing quote, or one
character of content. -/
inductive StrTok where
  | done
  | ch (c : Char)

/-- The low-surrogate half of a `\uXXXX\uXXXX` pair: `py_scanstring`
expects a second `\uXXXX` whose value lands in `DC00-DFFF` and combines
the two code units into one character. -/
def decodeSurrogate (n : Nat) : List Char → Option (StrTok × List Char)
  | b1 :: b2 :: a2 :: b3 :: c2 :: d2 :: rest2 =>
    if b1 = '\\' ∧ b2 = 'u' then
      (hex4 a2 b3 c2 d2).bind fun m =>
        if 0xDC00 ≤ m ∧ m ≤ 0xDFFF then
          (charOf? (0x10000 + (n - 0xD800) * 0x400 + (m - 0xDC00))).map
            fun ch => (.ch ch, rest2)
        else none
    else none
  | _ => none

/-- A `\uXXXX` escape: four hex digits, with a high surrogate starting a
pair. -/
def decodeU (a b c1 d : Char) (rest : List Char) : Option (StrTok × List Char) :=
  (hex4 a b c1 d).bind fun n =>
    if 0xD800 ≤ n ∧ n ≤ 0xDBFF then decodeSurrogate n rest
    else (charOf? n).map fun ch => (.ch ch, rest)

def strStepU : List Char → Option (StrTok × List Char)
  | a :: b :: c1 :: d :: rest => decodeU a b c1 d rest
  | _ => none

/-- After a backslash: `\u` starts a hex escape, any other character is
looked up in the single-character escape table. -/
def strStepEsc : List Char → Option (StrTok × List Char)
  | [] => none
  | e :: rest =>
    if e = 'u' then strStepU rest
    else (escDecode e).map fun ch => (.ch ch, rest)

/-- One character of a string body: closing quote ends it, backslash
escapes, raw control characters are rejected (strict mode), anything else
stands for itself. -/
def strStepC (c : Char) (cs : List Char) : Option (StrTok × List Char) :=
  if c = '"' then some (.done, cs)
  else if c = '\\' then strStepEsc cs
  else if c.toNat < 32 then none
  else some (.ch c, cs)

/-- One iteration of the `py_scanstring` loop. -/
def strStep : List Char → Option (StrTok × List Char)
  | [] => none
  | c :: cs => strStepC c cs

/-- The `py_scanstring` loop, driven by fuel; every iteration consumes at
least one character, so fuel `cs.length + 1` never runs out. -/
def strLoop : Nat → List Char → List Char → Option (String × List Char)
  | 0, _, _ => none
  | fuel + 1, acc, cs =>
    match strStep cs with
    | none => none
    | some (.done, rest) => some (⟨acc.reverse⟩, rest)
    | some (.ch c, rest) => strLoop fuel (c :: acc) rest

/-- `py_scanstring` after the opening quote: body characters into `acc`
(reversed), stopping at the closing quote. -/
def parseStrAux (acc cs : List Char) : Option (String × List Char) :=
  strLoop (cs.length + 1) acc cs

def digitsVal (ds : List Char) : Nat :=
  ds.foldl (fun a c => a * 10 + (c.toNat - 48)) 0

/-- The leading `-?` of `NUMBER_RE`. -/
def splitSign : List Char → Bool × List Char
  | '-' :: r => (true, r)
  | cs => (false, cs)

/-- The `(\.\d+)?` of `NUMBER_RE`: a fraction needs at least one digit
after the dot, else nothing is consumed. -/
def spanFrac : List Char → List Char × List Char
  | '.' :: r2 =>
    (match r2.span isDigitCh with
     | ([], _) => ([], '.' :: r2)
     | (ds, r3) => ('.' :: ds, r3))
  | l => ([], l)

/-- The `([eE][-+]?\d+)?` of `NUMBER_RE`: an exponent needs at least one
digit after the marker (and optional sign), else nothing is consumed. -/
def spanExp : List Char → List Char × List Char
  | e :: r2 =>
    if e = 'e' ∨ e = 'E' then
      let sp := match r2 with
        | s :: r3 => if s = '+' ∨ s = '-' then ([s], r3) else (([] : List Char), r2)
        | [] => ([], r2)
      match sp.2.span isDigitCh with
      | ([], _) => (([] : List Char), e :: r2)
      | (ds, r4) => (e :: (sp.1 ++ ds), r4)
    else ([], e :: r2)
  | [] => ([], [])

/-- Match `NUMBER_RE` at the head of the input and convert as the decoder
does: int when fraction and exponent are both absent, else a float, whose
matched lexeme we keep.  The integer part is `0|[1-9]\d*`: after a leading
`'0'` no further digits are taken. -/
def parseNum (cs : List Char) : Option (JVal × List Char) :=
  let p := splitSign cs
  match p.2 with
  | [] => none
  | c :: r =>
    if isDigitCh c then
      let ip := if c = '0' then ([c], r) else (c :: r).span isDigitCh
      let fp := spanFrac ip.2
      let ep := spanExp fp.2
      if fp.1.isEmpty ∧ ep.1.isEmpty then
        some (.jint ((if p.1 then -1 else 1) * (digitsVal ip.1 : Int)), ip.2)
      else
        some (.jfloat ⟨(if p.1 then ['-'] else []) ++ ip.1 ++ fp.1 ++ ep.1⟩, ep.2)
    else none

/-- Replace the value at a key in place, or append the pair: the effect of
`d[k] = v` on a Python dict rendered as an ordered association list. -/
def upsert : List (String × JVal) → String → JVal → List (String × JVal)
  | [], k, v => [(k, v)]
  | (k', v') :: rest, k, v =>
      if k' = k then (k', v) :: rest else (k', v') :: upsert rest k v

/-- `dict(pairs)`: first-occurrence position, last value wins. -/
def pyDict (pairs : List (String × JVal)) : List (String × JVal) :=
  pairs.foldl (fun acc kv => upsert acc kv.1 kv.2) []

/-- `string[idx:idx+n] == lit` for the tail of a literal constant whose
first character was already inspected: strip `lit` off the input. -/
def afterLit : List Char → List Char → Option (List Char)
  | [], cs => some cs
  | l :: ls, c :: cs => if c = l then afterLit ls cs else none
  | _ :: _, [] => none

mutual

def parseVal : Nat → List Char → Option (JVal × List Char)
  | 0, _ => none
  | fuel + 1, cs =>
    match wsSkip cs with
    | [] => none
    | c :: r =>
      if c = '"' then
        (match parseStrAux [] r with
         | some (s, r') => some (.jstr s, r')
         | none => none)
      else if c = '{' then
        (match wsSkip r with
         | '}' :: r' => some (.jobj [], r')
         | cs' =>
           match parseMembers fuel cs' with
           | some (ms, r') => some (.jobj (pyDict ms), r')
           | none => none)
      else if c = '[' then
        (match wsSkip r with
         | ']' :: r' => some (.jarr [], r')
         | cs' =>
           match parseElems fuel cs' with
           | some (xs, r') => some (.jarr xs, r')
           | none => none)
      else if c = 'n' then
        (match afterLit ['u', 'l', 'l'] r with
         | some r' => some (.jnull, r')
         | none => none)
      else if c = 't' then
        (match afterLit ['r', 'u', 'e'] r with
         | some r' => some (.jbool true, r')
         | none => none)
      else if c = 'f' then
        (match afterLit ['a', 'l', 's', 'e'] r with
         | some r' => some (.jbool false, r')
         | none => none)
      else if c = '-' ∨ isDigitCh c then
        (match parseNum (c :: r) with
         | some vr => some vr
         | none =>
           if c = '-' then
             match afterLit ['I', 'n', 'f', 'i', 'n', 'i', 't', 'y'] r with
             | some r' => some (.jfloat "-Infinity", r')
             | none => none
           else none)
      else if c = 'N' then
        (match afterLit ['a', 'N'] r with
         | some r' => some (.jfloat "NaN", r')
         | none => none)
      else if c = 'I' then
        (match afterLit ['n', 'f', 'i', 'n', 'i', 't', 'y'] r with
         | some r' => some (.jfloat "Infinity", r')
         | none => none)
      else none

def parseElems : Nat → List Char → Option (List JVal × List Char)
  | 0, _ => none
  | fuel + 1, cs =>
    match parseVal fuel cs with
    | none => none
    | some (v, r) =>
      match wsSkip r with
      | ',' :: r' =>
        (match parseElems fuel r' with
         | some (vs, r'') => some (v :: vs, r'')
         | none => none)
      | ']' :: r' => some ([v], r')
      | _ => none

def parseMembers : Nat → List Char → Option (List (String × JVal) × List Char)
  | 0, _ => none
  | fuel + 1, cs =>
    match wsSkip cs with
    | '"' :: r =>
      (match parseStrAux [] r with
       | none => none
       | some (k, r1) =>
         match wsSkip r1 with
         | ':' :: r2 =>
           (match parseVal fuel r2 with
            | none => none
            | some (v, r3) =>
              match wsSkip r3 with
              | ',' :: r4 =>
                (match parseMembers fuel r4 with
                 | some (ms, r5) => some ((k, v) :: ms, r5)
                 | none => none)
              | '}' :: r4 => some ([(k, v)], r4)
              | _ => none)
         | _ => none)
    | _ => none

end

/-- `json.loads`: parse one document, allowing surrounding whitespace and
rejecting trailing characters. -/
def jsonParse (s : String) : Option JVal :=
  match parseVal (s.data.length + 1) s.data with
  | some (v, r) => if wsSkip r = [] then some v else none
  | none => none

/-- A remainder that cannot extend a just-matched number lexeme: empty, or
headed by something `NUMBER_RE` would not continue with.  Every JSON
delimiter (`,`, `]`, `}`, whitespace, end of input) qualifies. -/
def numDelim : List Char → Bool
  | [] => true
  | c :: _ => !(isDigitCh c || c = '.' || c = 'e' || c = 'E')

/-- The values the agent's serializer produces: no float lexemes, and every
object has pairwise-distinct keys (so `dict(pairs)` is the identity). -/
inductive Tidy : JVal → Prop where
  | jnull : Tidy .jnull
  | jbool (b : Bool) : Tidy (.jbool b)
  | jint (n : Int) : Tidy (.jint n)
  | jstr (s : String) : Tidy (.jstr s)
  | jarr (xs : List JVal) : (∀ x ∈ xs, Tidy x) → Tidy (.jarr xs)
  | jobj (ms : List (String × JVal)) : (ms.map Prod.fst).Nodup →
      (∀ kv ∈ ms, Tidy kv.2) → Tidy (.jobj ms)

/-! ## The agent — data model

`src/agent/redspecter_ai_usage_watchdog.py`.  A signature dict has the six
string fields of the entries of `SIGNATURES`; `proc.info` as requested from
`psutil.process_iter(["pid", "name", "cmdline", "username"])` has a pid and
possibly-`None` name, cmdline and username (absent/`None` becomes `none`).
Processes that vanish mid-enumeration are skipped by the source before the
matching loop, so a scan's input here is the list of snapshots that
survived field retrieval. -/

structure Signature where
  name : String
  description : String
  match_type : String
  pattern : String
  risk : String
  category : String
deriving DecidableEq, Repr

/-- The six built-in signatures, verbatim from the source. -/
def SIGNATURES : List Signature :=
  [{ name := "ollama_local_llm"
     description := "Local LLM runtime (Ollama)"
     match_type := "process_name_contains"
     pattern := "ollama"
     risk := "medium"
     category := "local_llm" },
   { name := "open_webui_frontend"
     description := "Open WebUI interface"
     match_type := "process_name_contains"
     pattern := "open-webui"
     risk := "medium"
     category := "local_llm_ui" },
   { name := "openai_api_call"
     description := "Process calling OpenAI API endpoint"
     match_type := "cmdline_contains"
     pattern := "api.openai.com"
     risk := "high"
     category := "remote_llm" },
   { name := "anthropic_api_call"
     description := "Process calling Anthropic API endpoint"
     match_type := "cmdline_contains"
     pattern := "api.anthropic.com"
     risk := "high"
     category := "remote_llm" },
   { name := "google_gemini_api_call"
     description := "Process calling Google Gemini / generative AI endpoint"
     match_type := "cmdline_contains"
     pattern := "generativelanguage.googleapis.com"
     risk := "high"
     category := "remote_llm" },
   { name := "generic_llm_keyword"
     description := "Process with generic LLM-related keyword in command line"
     match_type := "cmdline_contains"
     pattern := "llm"
     risk := "low"
     category := "generic_ai" }]

structure ProcInfo where
  pid : Int
  name : Option String
  cmdline : Option (List String)
  username : Option String
deriving DecidableEq, Repr

/-- `proc_info.get("name") or ""` (`None` and `""` both give `""`). -/
def orEmptyStr : Option String → String
  | none => ""
  | some s => s

/-- `proc_info.get("cmdline") or []` (`None` and `[]` both give `[]`). -/
def orEmptyList : Option (List String) → List String
  | none => []
  | some l => l

/-- `info.get("username") or "unknown"` (`None` and `""` give `"unknown"`). -/
def orUnknown : Option String → String
  | none => "unknown"
  | some s => if s = "" then "unknown" else s

/-- `str.lower` (ASCII case mapping; see the header note). -/
def pyLower (s : String) : String := ⟨s.data.map Char.toLower⟩

/-- `" ".join(cmdline_list)`. -/
def joinSpace : List String → List Char
  | [] => []
  | [s] => s.data
  | s :: r :: rest => s.data ++ ' ' :: joinSpace (r :: rest)

/-- `pat` begins `hay`. -/
def leadsWith : List Char → List Char → Bool
  | [], _ => true
  | _ :: _, [] => false
  | p :: ps, h :: hs => p = h && leadsWith ps hs

/-- `pat` occurs contiguously in `hay`. -/
def hasSub (pat : List Char) : List Char → Bool
  | [] => leadsWith pat []
  | h :: hs => leadsWith pat (h :: hs) || hasSub pat hs

/-- `pat in hay` on Python strings: substring containment. -/
def pyIn (pat hay : String) : Bool := hasSub pat.data hay.data

/-- `match_signature(sig, proc_info)`. -/
def match_signature (sig : Signature) (proc_info : ProcInfo) : Bool :=
  let pname := pyLower (orEmptyStr proc_info.name)
  let cmdline_str := pyLower ⟨joinSpace (orEmptyList proc_info.cmdline)⟩
  let pattern := pyLower sig.pattern
  let mtype := sig.match_type
  if pattern = "" || mtype = "" then false
  else if mtype = "process_name_contains" then pyIn pattern pname
  else if mtype = "cmdline_contains" then pyIn pattern cmdline_str
  else false

/-! ## The agent — one scan cycle

`scan_once` opens the log for append and walks every (process, signature)
pair; a new match adds `(pid, sig["name"])` to `seen` and then writes one
JSON line.  An `OSError` from opening or from any write aborts the loop,
is caught, printed, and the count of successful writes is returned.

The write counter `events_written` always equals the number of events
appended so far, so the state threads `seen` and the cycle's event list;
the timestamp source `utc_now_iso` becomes a function of the emission
index, and a possible `OSError` becomes `failAt`: the write attempt with
that index raises.  `Except` models the exception flow: `.error st` is the
state at the moment the `OSError` escaped the loop. -/

structure Event where
  timestamp_utc : String
  hostname : String
  username : String
  pid : Int
  process_name : String
  cmdline : List String
  signature_name : String
  signature_description : String
  risk : String
  category : String
  version : String
  product : String
deriving DecidableEq, Repr

/-- The event dict, in the field order of the source. -/
def eventToJson (e : Event) : JVal :=
  .jobj
    [("timestamp_utc", .jstr e.timestamp_utc),
     ("hostname", .jstr e.hostname),
     ("username", .jstr e.username),
     ("pid", .jint e.pid),
     ("process_name", .jstr e.process_name),
     ("cmdline", .jarr (e.cmdline.map JVal.jstr)),
     ("signature_name", .jstr e.signature_name),
     ("signature_description", .jstr e.signature_description),
     ("risk", .jstr e.risk),
     ("category", .jstr e.category),
     ("version", .jstr e.version),
     ("product", .jstr e.product)]

/-- The event record built at `scan_once`'s write site. -/
def mkEvent (ts hostname : String) (info : ProcInfo) (sig : Signature) : Event :=
  { timestamp_utc := ts
    hostname := hostname
    username := orUnknown info.username
    pid := info.pid
    process_name := orEmptyStr info.name
    cmdline := orEmptyList info.cmdline
    signature_name := sig.name
    signature_description := sig.description
    risk := sig.risk
    category := sig.category
    version := "v0.1"
    product := "Red Specter AI Usage Watchdog" }

def keyOf (e : Event) : Int × String := (e.pid, e.signature_name)

structure LoopSt where
  seen : List (Int × String)
  events : List Event
deriving Repr

/-- The inner `for sig in signatures` loop for one process. -/
def scanSigs (ts : Nat → String) (hostname : String) (failAt : Option Nat)
    (info : ProcInfo) : List Signature → LoopSt → Except LoopSt LoopSt
  | [], st => .ok st
  | sig :: rest, st =>
    if match_signature sig info then
      let key := (info.pid, sig.name)
      if key ∈ st.seen then scanSigs ts hostname failAt info rest st
      else
        let seen' := key :: st.seen
        if failAt = some st.events.length then .error ⟨seen', st.events⟩
        else
          scanSigs ts hostname failAt info rest
            ⟨seen', st.events ++ [mkEvent (ts st.events.length) hostname info sig]⟩
    else scanSigs ts hostname failAt info rest st

/-- The outer `for proc in psutil.process_iter(...)` loop. -/
def scanProcs (signatures : List Signature) (ts : Nat → String) (hostname : String)
    (failAt : Option Nat) : List ProcInfo → LoopSt → Except LoopSt LoopSt
  | [], st => .ok st
  | p :: ps, st =>
    match scanSigs ts hostname failAt p signatures st with
    | .ok st' => scanProcs signatures ts hostname failAt ps st'
    | .error st' => .error st'

structure ScanResult where
  seen : List (Int × String)
  appended : List Event
  count : Nat
  reported : Bool
deriving Repr

/-- `scan_once(signatures, seen, hostname, logfile)`: `openFail` is an
`OSError` from `open`, `failAt` an `OSError` from the write with that
index; either is caught, reported, and the count of completed writes is
returned. -/
def scan_once (signatures : List Signature) (seen : List (Int × String))
    (hostname : String) (procs : List ProcInfo) (ts : Nat → String)
    (openFail : Bool) (failAt : Option Nat) : ScanResult :=
  if openFail then ⟨seen, [], 0, true⟩
  else
    match scanProcs signatures ts hostname failAt procs ⟨seen, []⟩ with
    | .ok st => ⟨st.seen, st.events, st.events.length, false⟩
    | .error st => ⟨st.seen, st.events, st.events.length, true⟩

/-! ## The agent — the scheduling loop

One run: `seen = set()` once, then `scan_once` per cycle, the log file
accumulating appends.  A cycle plan carries that cycle's process table,
timestamp source, and injected I/O faults. -/

structure CyclePlan where
  procs : List ProcInfo
  ts : Nat → String
  openFail : Bool
  failAt : Option Nat

/-- A fault-free cycle over a process table. -/
def cleanCycle (procs : List ProcInfo) (ts : Nat → String) : CyclePlan :=
  ⟨procs, ts, false, none⟩

structure RunSt where
  seen : List (Int × String)
  log : List Event
  counts : List Nat
  reports : List Bool

/-- The continuous-mode loop body, one entry of `plans` per cycle. -/
def runPlans (signatures : List Signature) (hostname : String) :
    List CyclePlan → RunSt → RunSt
  | [], st => st
  | plan :: rest, st =>
    let r := scan_once signatures st.seen hostname plan.procs plan.ts
      plan.openFail plan.failAt
    runPlans signatures hostname rest
      ⟨r.seen, st.log ++ r.appended, st.counts ++ [r.count], st.reports ++ [r.reported]⟩

/-- Run-start state: empty dedup set, empty log. -/
def runInit : RunSt := ⟨[], [], [], []⟩

/-- The log's events for one dedup key. -/
def eventsFor (k : Int × String) (log : List Event) : List Event :=
  log.filter (fun e => keyOf e == k)

/-! ## The viewer — loading

`src/tools/watchdog_view.py`.  `load_events` strips each line, skips blank
lines, and appends whatever `json.loads` yields, skipping only lines that
raise `JSONDecodeError`.  A missing file yields `[]` after a console
message.  The file is a list of its lines (the agent writes
`dumps(event) + "\n"`, and a dumped event contains no newline — proved
below — so its line is exactly the dumped text). -/

/-- `str.strip()`'s whitespace, ASCII part; the Unicode additions play no
role in any claim here. -/
def isPySpace (c : Char) : Bool :=
  c = ' ' || c = '\t' || c = '\n' || c = '\r' || c = Char.ofNat 11 || c = Char.ofNat 12

/-- `line.strip()`. -/
def pstrip (s : String) : String :=
  ⟨((s.data.dropWhile isPySpace).reverse.dropWhile isPySpace).reverse⟩

/-- `load_events` over the file's lines. -/
def load_events : List String → List JVal
  | [] => []
  | line :: rest =>
    let l := pstrip line
    if l = "" then load_events rest
    else
      match jsonParse l with
      | some evt => evt :: load_events rest
      | none => load_events rest

/-- `load_events(logfile)` including the missing-file check: `none` is an
absent path. -/
def load_events_file : Option (List String) → List JVal
  | none => []
  | some lines => load_events lines

/-! ## The viewer — summarising

`print_summary` builds four `Counter`s over `evt.get(field, "unknown")`,
parses timestamps via `parse_ts` (`datetime.fromisoformat` after a
`"Z" → "+00:00"` substitution, any failure giving `None`), and prints the
total, the time range (min/max of the parsed timestamps, `"unknown"` when
none parse), and `Counter.most_common(top)` tables.

`datetime` is an external facility: the summary is parameterised by the
timestamp type `DT` and by `fromiso : String → Option DT` modelling
`datetime.fromisoformat` (`none` = raises).  An event that is not a dict
makes `evt.get` raise `AttributeError`, which nothing catches: the result
`none` models that exception escaping `print_summary`. -/

/-- `ts.replace("Z", "+00:00")`. -/
def replaceZ (s : String) : String :=
  ⟨s.data.foldr
    (fun c acc => if c = 'Z' then '+' :: '0' :: '0' :: ':' :: '0' :: '0' :: acc else c :: acc)
    []⟩

/-- `parse_ts(ts)` on the value `evt.get("timestamp_utc")` (`none` when the
key is missing).  A non-string value is either falsy (`None` returned) or
makes `.replace` raise, caught by the bare `except` (`None` returned). -/
def parse_ts {DT : Type} (fromiso : String → Option DT) : Option JVal → Option DT
  | none => none
  | some (.jstr s) => if s = "" then none else fromiso (replaceZ s)
  | some _ => none

def isObjB : JVal → Bool
  | .jobj _ => true
  | _ => false

/-- `evt.get(k, dflt)` for an event known to be a dict. -/
def dictGetD (k : String) (dflt : JVal) (e : JVal) : JVal :=
  match e with
  | .jobj ms => ((ms.find? (fun kv => kv.1 == k)).map Prod.snd).getD dflt
  | _ => dflt

/-- `evt.get(k)` for an event known to be a dict. -/
def dictGet? (k : String) (e : JVal) : Option JVal :=
  match e with
  | .jobj ms => (ms.find? (fun kv => kv.1 == k)).map Prod.snd
  | _ => none

/-- `Counter` update: increment in place or append a new entry
(`JVal.beq` is Python `==` on these values: structural equality). -/
def counterAdd (c : List (JVal × Nat)) (x : JVal) : List (JVal × Nat) :=
  match c with
  | [] => [(x, 1)]
  | (y, n) :: rest => if JVal.beq y x then (y, n + 1) :: rest else (y, n) :: counterAdd rest x

/-- `Counter(xs)`: entries in first-seen order. -/
def mkCounter (xs : List JVal) : List (JVal × Nat) := xs.foldl counterAdd []

/-- The count a `Counter` holds for `x` (0 when absent). -/
def counterCount (c : List (JVal × Nat)) (x : JVal) : Nat :=
  ((c.find? (fun p => JVal.beq p.1 x)).map Prod.snd).getD 0

/-- Insert `p` into a count-descending list, after every entry whose count
is at least `p`'s (so insertion keeps earlier-added entries first on
ties). -/
def insertDesc (p : JVal × Nat) : List (JVal × Nat) → List (JVal × Nat)
  | [] => [p]
  | q :: rest => if q.2 < p.2 then p :: q :: rest else q :: insertDesc p rest

/-- `Counter.most_common(n)`: the entries sorted by count descending with
ties in first-seen order — `heapq.nlargest` is documented equivalent to
`sorted(..., reverse=True)[:n]`, a stable descending sort; any stable
descending sort computes the same list, and a left fold of stable
insertions is one. -/
def mostCommon (c : List (JVal × Nat)) (n : Nat) : List (JVal × Nat) :=
  (c.foldl (fun acc p => insertDesc p acc) []).take n

/-- `min`/`max` of a Python list via a running fold. -/
def foldMin {DT : Type} [LinearOrder DT] (o : Option DT) (v : DT) : Option DT :=
  match o with
  | none => some v
  | some m => some (min m v)

def foldMax {DT : Type} [LinearOrder DT] (o : Option DT) (v : DT) : Option DT :=
  match o with
  | none => some v
  | some m => some (max m v)

def listMin {DT : Type} [LinearOrder DT] (l : List DT) : Option DT := l.foldl foldMin none

def listMax {DT : Type} [LinearOrder DT] (l : List DT) : Option DT := l.foldl foldMax none

structure Summary (DT : Type) where
  total : Nat
  timeRange : Option (DT × DT)
  riskCounter : List (JVal × Nat)
  sigCounter : List (JVal × Nat)
  userCounter : List (JVal × Nat)
  hostCounter : List (JVal × Nat)
  byRisk : List (JVal × Nat)
  bySignature : List (JVal × Nat)
  byUser : List (JVal × Nat)
  byHost : List (JVal × Nat)
deriving Repr

/-- What `print_summary` prints: the early "No events found" return, or
the full report. `none` models the `AttributeError` escaping when some
loaded event is not a dict. -/
inductive SummaryOut (DT : Type) where
  | noEvents : SummaryOut DT
  | report : Summary DT → SummaryOut DT
deriving Repr

def SummaryOut.isReport {DT : Type} : SummaryOut DT → Bool
  | .noEvents => false
  | .report _ => true

/-- The by-risk table of a report (`[]` on the early return), for stating
what the summary displays. -/
def SummaryOut.byRiskTable {DT : Type} : SummaryOut DT → List (JVal × Nat)
  | .noEvents => []
  | .report s => s.byRisk

/-- `print_summary(events, top_n)`. -/
def print_summary {DT : Type} [LinearOrder DT] (fromiso : String → Option DT)
    (events : List JVal) (top_n : Nat) : Option (SummaryOut DT) :=
  if events.isEmpty then some .noEvents
  else if events.all isObjB then
    let risks := mkCounter (events.map (dictGetD "risk" (.jstr "unknown")))
    let signatures := mkCounter (events.map (dictGetD "signature_name" (.jstr "unknown")))
    let users := mkCounter (events.map (dictGetD "username" (.jstr "unknown")))
    let hosts := mkCounter (events.map (dictGetD "hostname" (.jstr "unknown")))
    let timestamps := events.filterMap (fun e => parse_ts fromiso (dictGet? "timestamp_utc" e))
    let tr := match listMin timestamps, listMax timestamps with
      | some a, some b => some (a, b)
      | _, _ => none
    some (.report
      { total := events.length
        timeRange := tr
        riskCounter := risks
        sigCounter := signatures
        userCounter := users
        hostCounter := hosts
        byRisk := mostCommon risks top_n
        bySignature := mostCommon signatures top_n
        byUser := mostCommon users top_n
        byHost := mostCommon hosts top_n })
  else none

/-- Agreement of two summary runs up to display order inside the top-N
tables: the same branch taken (early return / exception / report), and
for reports, the same total, the same time range, and the same frequency
count for every key in each of the four tables. -/
def summariesAgree {DT : Type} : Option (SummaryOut DT) → Option (SummaryOut DT) → Prop
  | none, none => True
  | some .noEvents, some .noEvents => True
  | some (.report s1), some (.report s2) =>
      s1.total = s2.total ∧ s1.timeRange = s2.timeRange ∧
      (∀ x, counterCount s1.riskCounter x = counterCount s2.riskCounter x) ∧
      (∀ x, counterCount s1.sigCounter x = counterCount s2.sigCounter x) ∧
      (∀ x, counterCount s1.userCounter x = counterCount s2.userCounter x) ∧
      (∀ x, counterCount s1.hostCounter x = counterCount s2.hostCounter x)
  | _, _ => False

/-! ## The reference matcher (spec §4.1)

The spec's own words for `matches(signature, process_snapshot)`: true iff
the pattern is non-empty and either the match type is the
process-name-substring kind and the lowercased pattern occurs in the
lowercased process name, or the match type is the command-line-substring
kind and the lowercased pattern occurs in the space-joined, lowercased
command line; false for an empty pattern or an unrecognized match type,
with missing fields read as empty string / empty list. -/

def matchesRef (sig : Signature) (snap : ProcInfo) : Bool :=
  decide (sig.pattern ≠ "") &&
    ((decide (sig.match_type = "process_name_contains") &&
        pyIn (pyLower sig.pattern) (pyLower (orEmptyStr snap.name))) ||
     (decide (sig.match_type = "cmdline_contains") &&
        pyIn (pyLower sig.pattern) (pyLower ⟨joinSpace (orEmptyList snap.cmdline)⟩)))

/-! ## Proofs — the matcher (claim C1) -/

theorem pyLower_eq_empty_iff (s : String) : pyLower s = "" ↔ s = "" := by
  cases s with
  | mk data =>
    cases data <;> simp [pyLower, String.ext_iff]

/-- C1: on every signature and snapshot, `match_signature` computes
exactly the spec's reference matcher: true iff the pattern is non-empty
and the match type is one of the two recognized kinds whose lowercased
haystack contains the lowercased pattern; an empty pattern or an
unrecognized (including missing, i.e. empty) match type gives false, and
missing snapshot fields are read as empty string / empty list. -/
theorem match_signature_eq_ref (sig : Signature) (info : ProcInfo) :
    match_signature sig info = matchesRef sig info := by
  unfold match_signature matchesRef
  by_cases hp : sig.pattern = ""
  · simp [hp, pyLower]
  · have hp' : ¬(pyLower sig.pattern = "") := fun h => hp ((pyLower_eq_empty_iff _).mp h)
    by_cases h1 : sig.match_type = "process_name_contains"
    · simp [h1, hp, hp']
    · by_cases h2 : sig.match_type = "cmdline_contains"
      · have h0 : ¬(sig.match_type = "") := by simp [h2]
        simp [h1, h2, h0, hp, hp']
      · by_cases h0 : sig.match_type = ""
        · simp [h0, hp, hp']
        · simp [h0, h1, h2, hp, hp']

/-! ## Proofs — the scan cycle without I/O failure

A fault-free pass appends a block `L` of fresh events: their keys extend
`seen` (reversed, they were consed on), none of them was in `seen`
before, they are mutually distinct, and every (process, signature) match
in the input ends up with its key in the final `seen`. -/

theorem keyOf_mkEvent (ts h : String) (info : ProcInfo) (sig : Signature) :
    keyOf (mkEvent ts h info sig) = (info.pid, sig.name) := rfl

theorem scanSigs_none (ts : Nat → String) (h : String) (info : ProcInfo) :
    ∀ (sigs : List Signature) (st : LoopSt),
      ∃ L : List Event,
        scanSigs ts h none info sigs st
            = .ok ⟨(L.map keyOf).reverse ++ st.seen, st.events ++ L⟩ ∧
          (∀ e ∈ L, keyOf e ∉ st.seen) ∧
          (L.map keyOf).Nodup ∧
          (∀ sig ∈ sigs, match_signature sig info = true →
            (info.pid, sig.name) ∈ (L.map keyOf).reverse ++ st.seen)
  | [], st => ⟨[], by simp [scanSigs], by simp, by simp, by simp⟩
  | sig :: rest, st => by
    by_cases hm : match_signature sig info
    · by_cases hseen : (info.pid, sig.name) ∈ st.seen
      · obtain ⟨L, hrun, hfresh, hnd, hmem⟩ := scanSigs_none ts h info rest st
        refine ⟨L, ?_, hfresh, hnd, ?_⟩
        · simpa [scanSigs, hm, hseen] using hrun
        · intro sig' hsig' hm'
          rcases List.mem_cons.mp hsig' with rfl | hsig'
          · exact List.mem_append.mpr (Or.inr hseen)
          · exact hmem sig' hsig' hm'
      · obtain ⟨L, hrun, hfresh, hnd, hmem⟩ :=
          scanSigs_none ts h info rest
            ⟨(info.pid, sig.name) :: st.seen,
             st.events ++ [mkEvent (ts st.events.length) h info sig]⟩
        refine ⟨mkEvent (ts st.events.length) h info sig :: L, ?_, ?_, ?_, ?_⟩
        · rw [show scanSigs ts h none info (sig :: rest) st
              = scanSigs ts h none info rest
                  ⟨(info.pid, sig.name) :: st.seen,
                   st.events ++ [mkEvent (ts st.events.length) h info sig]⟩
            from by simp [scanSigs, hm, hseen], hrun]
          simp [keyOf_mkEvent]
        · intro e he
          rcases List.mem_cons.mp he with rfl | he
          · simpa [keyOf_mkEvent] using hseen
          · intro hc
            exact hfresh e he (List.mem_cons.mpr (Or.inr hc))
        · refine List.nodup_cons.mpr ⟨?_, hnd⟩
          intro hc
          rcases List.mem_map.mp hc with ⟨e, he, heq⟩
          exact hfresh e he (heq ▸ List.mem_cons_self _ _)
        · intro sig' hsig' hm'
          rcases List.mem_cons.mp hsig' with rfl | hsig'
          · refine List.mem_append.mpr (Or.inl ?_)
            simp [keyOf_mkEvent]
          · have h2 := hmem sig' hsig' hm'
            rw [List.map_cons, List.reverse_cons, List.append_assoc]
            exact h2
    · obtain ⟨L, hrun, hfresh, hnd, hmem⟩ := scanSigs_none ts h info rest st
      refine ⟨L, ?_, hfresh, hnd, ?_⟩
      · simpa [scanSigs, hm] using hrun
      · intro sig' hsig' hm'
        rcases List.mem_cons.mp hsig' with rfl | hsig'
        · exact absurd hm' hm
        · exact hmem sig' hsig' hm'

theorem scanProcs_none (sigs : List Signature) (ts : Nat → String) (h : String) :
    ∀ (procs : List ProcInfo) (st : LoopSt),
      ∃ L : List Event,
        scanProcs sigs ts h none procs st
            = .ok ⟨(L.map keyOf).reverse ++ st.seen, st.events ++ L⟩ ∧
          (∀ e ∈ L, keyOf e ∉ st.seen) ∧
          (L.map keyOf).Nodup ∧
          (∀ p ∈ procs, ∀ sig ∈ sigs, match_signature sig p = true →
            (p.pid, sig.name) ∈ (L.map keyOf).reverse ++ st.seen)
  | [], st => ⟨[], by simp [scanProcs], by simp, by simp, by simp⟩
  | p :: ps, st => by
    obtain ⟨L1, hrun1, hfresh1, hnd1, hmem1⟩ := scanSigs_none ts h p sigs st
    obtain ⟨L2, hrun2, hfresh2, hnd2, hmem2⟩ :=
      scanProcs_none sigs ts h ps ⟨(L1.map keyOf).reverse ++ st.seen, st.events ++ L1⟩
    refine ⟨L1 ++ L2, ?_, ?_, ?_, ?_⟩
    · rw [show scanProcs sigs ts h none (p :: ps) st
          = scanProcs sigs ts h none ps ⟨(L1.map keyOf).reverse ++ st.seen, st.events ++ L1⟩
        from by simp [scanProcs, hrun1], hrun2]
      simp
    · intro e he
      rcases List.mem_append.mp he with he | he
      · exact hfresh1 e he
      · intro hc
        exact hfresh2 e he (List.mem_append.mpr (Or.inr hc))
    · rw [List.map_append]
      refine List.Nodup.append hnd1 hnd2 ?_
      intro k hk1 hk2
      rcases List.mem_map.mp hk2 with ⟨e, he, heq⟩
      exact hfresh2 e he (heq ▸ List.mem_append.mpr (Or.inl (List.mem_reverse.mpr hk1)))
    · intro q hq sig hsig hm
      rw [List.map_append, List.reverse_append, List.append_assoc]
      rcases List.mem_cons.mp hq with rfl | hq
      · exact List.mem_append.mpr (Or.inr (hmem1 sig hsig hm))
      · exact hmem2 q hq sig hsig hm

/-- A fault-free `scan_once` in terms of its block of new events. -/
theorem scan_once_none (sigs : List Signature) (seen : List (Int × String))
    (h : String) (procs : List ProcInfo) (ts : Nat → String) :
    ∃ L : List Event,
      scan_once sigs seen h procs ts false none
          = ⟨(L.map keyOf).reverse ++ seen, L, L.length, false⟩ ∧
        (∀ e ∈ L, keyOf e ∉ seen) ∧
        (L.map keyOf).Nodup ∧
        (∀ p ∈ procs, ∀ sig ∈ sigs, match_signature sig p = true →
          (p.pid, sig.name) ∈ (L.map keyOf).reverse ++ seen) := by
  obtain ⟨L, hrun, hfresh, hnd, hmem⟩ := scanProcs_none sigs ts h procs ⟨seen, []⟩
  exact ⟨L, by simp [scan_once, hrun], hfresh, hnd, hmem⟩

theorem eventsFor_nil_of_not_mem (k : Int × String) (L : List Event)
    (h : ∀ e ∈ L, keyOf e ≠ k) : eventsFor k L = [] :=
  List.filter_eq_nil_iff.mpr (fun e he hbe => h e he (eq_of_beq hbe))

/-- With pairwise-distinct keys, a present key owns exactly one event. -/
theorem eventsFor_singleton_of_nodup (k : Int × String) :
    ∀ L : List Event, (L.map keyOf).Nodup → k ∈ L.map keyOf →
      (eventsFor k L).length = 1
  | [], _, hk => by simp at hk
  | e :: L, hnd, hk => by
    rw [List.map_cons, List.nodup_cons] at hnd
    by_cases h : keyOf e = k
    · have hnil : List.filter (fun e' => keyOf e' == k) L = [] := by
        refine eventsFor_nil_of_not_mem k L (fun e' he' hc => hnd.1 ?_)
        rw [h, ← hc]
        exact List.mem_map.mpr ⟨e', he', rfl⟩
      rw [eventsFor, List.filter_cons]
      simp [h, hnil]
    · have hk' : k ∈ L.map keyOf := by
        rcases List.mem_cons.mp hk with h1 | h1
        · exact absurd h1.symm h
        · exact h1
      have := eventsFor_singleton_of_nodup k L hnd.2 hk'
      simpa [eventsFor, List.filter_cons, h] using this

/-- A fresh (pid, signature-name) match produces exactly one event this
cycle and lands in the dedup set. -/
theorem scan_once_key_emitted (sigs : List Signature) (seen : List (Int × String))
    (h : String) (procs : List ProcInfo) (ts : Nat → String)
    (p : ProcInfo) (sig : Signature)
    (hp : p ∈ procs) (hsig : sig ∈ sigs)
    (hm : match_signature sig p = true)
    (hfresh : (p.pid, sig.name) ∉ seen) :
    (eventsFor (p.pid, sig.name) (scan_once sigs seen h procs ts false none).appended).length = 1
      ∧ (p.pid, sig.name) ∈ (scan_once sigs seen h procs ts false none).seen := by
  obtain ⟨L, heq, hfr, hnd, hmem⟩ := scan_once_none sigs seen h procs ts
  have hkey : (p.pid, sig.name) ∈ L.map keyOf := by
    rcases List.mem_append.mp (hmem p hp sig hsig hm) with h1 | h1
    · exact List.mem_reverse.mp h1
    · exact absurd h1 hfresh
  refine ⟨?_, ?_⟩
  · rw [heq]
    exact eventsFor_singleton_of_nodup _ L hnd hkey
  · rw [heq]
    exact List.mem_append.mpr (Or.inl (List.mem_reverse.mpr hkey))

/-- A key already in the dedup set is silent for the cycle and stays in
the set. -/
theorem scan_once_key_suppressed (sigs : List Signature) (seen : List (Int × String))
    (h : String) (procs : List ProcInfo) (ts : Nat → String)
    (k : Int × String) (hk : k ∈ seen) :
    eventsFor k (scan_once sigs seen h procs ts false none).appended = []
      ∧ k ∈ (scan_once sigs seen h procs ts false none).seen := by
  obtain ⟨L, heq, hfr, _, _⟩ := scan_once_none sigs seen h procs ts
  refine ⟨?_, ?_⟩
  · rw [heq]
    exact eventsFor_nil_of_not_mem k L (fun e he hc => hfr e he (hc ▸ hk))
  · rw [heq]
    exact List.mem_append.mpr (Or.inr hk)

/-- Once a key is in the dedup set, any sequence of later fault-free
cycles adds no event for it. -/
theorem runPlans_clean_suppressed (sigs : List Signature) (h : String) (k : Int × String) :
    ∀ (plans : List (List ProcInfo × (Nat → String))) (st : RunSt), k ∈ st.seen →
      eventsFor k
          (runPlans sigs h (plans.map (fun pl => cleanCycle pl.1 pl.2)) st).log
        = eventsFor k st.log
  | [], st, _ => by simp [runPlans]
  | pl :: rest, st, hk => by
    obtain ⟨hnil, hmem⟩ :=
      scan_once_key_suppressed sigs st.seen h pl.1 pl.2 k hk
    have step :
        runPlans sigs h ((pl :: rest).map (fun pl => cleanCycle pl.1 pl.2)) st
          = runPlans sigs h (rest.map (fun pl => cleanCycle pl.1 pl.2))
              ⟨(scan_once sigs st.seen h pl.1 pl.2 false none).seen,
               st.log ++ (scan_once sigs st.seen h pl.1 pl.2 false none).appended,
               st.counts ++ [(scan_once sigs st.seen h pl.1 pl.2 false none).count],
               st.reports ++ [(scan_once sigs st.seen h pl.1 pl.2 false none).reported]⟩ := by
      simp [runPlans, cleanCycle]
    rw [step, runPlans_clean_suppressed sigs h k rest _ hmem]
    show eventsFor k (st.log ++ (scan_once sigs st.seen h pl.1 pl.2 false none).appended)
        = eventsFor k st.log
    rw [eventsFor, List.filter_append,
      show List.filter (fun e => keyOf e == k)
          (scan_once sigs st.seen h pl.1 pl.2 false none).appended = [] from hnil,
      List.append_nil]
    rfl

/-- C2: across any number of consecutive fault-free cycles of one run, in
each of which some process with the given pid matches the given signature
(its name and command line free to differ cycle to cycle), exactly one
Event Record for the (pid, signature-name) pair is written: the first
cycle emits it, every later one is suppressed by the run's dedup set. -/
theorem dedup_exactly_once_per_run (sigs : List Signature) (hostname : String)
    (sig : Signature) (pid : Int)
    (plans : List (List ProcInfo × (Nat → String)))
    (hsig : sig ∈ sigs) (hne : plans ≠ [])
    (hmatch : ∀ pl ∈ plans, ∃ p ∈ pl.1, p.pid = pid ∧ match_signature sig p = true) :
    (eventsFor (pid, sig.name)
      (runPlans sigs hostname (plans.map (fun pl => cleanCycle pl.1 pl.2)) runInit).log).length
      = 1 := by
  obtain ⟨pl, rest, rfl⟩ : ∃ pl rest, plans = pl :: rest := by
    cases plans with
    | nil => exact absurd rfl hne
    | cons a l => exact ⟨a, l, rfl⟩
  obtain ⟨p, hp, hpid, hm⟩ := hmatch pl (List.mem_cons_self _ _)
  subst hpid
  obtain ⟨hone, hseen⟩ :=
    scan_once_key_emitted sigs [] hostname pl.1 pl.2 p sig hp hsig hm (by simp)
  rw [List.map_cons,
    show runPlans sigs hostname
        (cleanCycle pl.1 pl.2 :: rest.map (fun pl => cleanCycle pl.1 pl.2)) runInit
      = runPlans sigs hostname (rest.map (fun pl => cleanCycle pl.1 pl.2))
          ⟨(scan_once sigs [] hostname pl.1 pl.2 false none).seen,
           [] ++ (scan_once sigs [] hostname pl.1 pl.2 false none).appended,
           [] ++ [(scan_once sigs [] hostname pl.1 pl.2 false none).count],
           [] ++ [(scan_once sigs [] hostname pl.1 pl.2 false none).reported]⟩ from rfl,
    runPlans_clean_suppressed sigs hostname (p.pid, sig.name) rest _ hseen]
  simpa using hone

/-- C2's witness: pid 1234 matching `ollama_local_llm` in three
consecutive cycles (the middle one with a changed command line) writes
exactly one record. -/
theorem dedup_exactly_once_per_run_witness :
    (eventsFor (1234, "ollama_local_llm")
      (runPlans SIGNATURES "host"
        ([([⟨1234, some "ollama", some ["ollama", "serve"], some "alice"⟩], fun _ => "t1"),
          ([⟨1234, some "ollama", some ["ollama", "run", "x"], some "alice"⟩], fun _ => "t2"),
          ([⟨1234, some "ollama", some ["ollama", "serve"], some "alice"⟩], fun _ => "t3")].map
          (fun pl => cleanCycle pl.1 pl.2)) runInit).log).length = 1 := by
  refine dedup_exactly_once_per_run SIGNATURES "host"
    { name := "ollama_local_llm"
      description := "Local LLM runtime (Ollama)"
      match_type := "process_name_contains"
      pattern := "ollama"
      risk := "medium"
      category := "local_llm" } 1234 _ (by decide) (List.cons_ne_nil _ _) ?_
  intro pl hpl
  simp only [List.mem_cons, List.not_mem_nil, or_false] at hpl
  rcases hpl with rfl | rfl | rfl
  · exact ⟨_, List.mem_cons_self _ _, rfl, by decide⟩
  · exact ⟨_, List.mem_cons_self _ _, rfl, by decide⟩
  · exact ⟨_, List.mem_cons_self _ _, rfl, by decide⟩

/-- C4: two signatures with distinct names both matching the same process
in a fresh cycle each write their own Event Record (the dedup key carries
the signature name), and the two records are distinct. -/
theorem two_signatures_two_records (sigs : List Signature) (hostname : String)
    (procs : List ProcInfo) (ts : Nat → String) (p : ProcInfo)
    (sig1 sig2 : Signature)
    (hp : p ∈ procs) (h1 : sig1 ∈ sigs) (h2 : sig2 ∈ sigs)
    (hname : sig1.name ≠ sig2.name)
    (hm1 : match_signature sig1 p = true) (hm2 : match_signature sig2 p = true) :
    (eventsFor (p.pid, sig1.name)
        (scan_once sigs [] hostname procs ts false none).appended).length = 1
    ∧ (eventsFor (p.pid, sig2.name)
        (scan_once sigs [] hostname procs ts false none).appended).length = 1
    ∧ ∀ e1 ∈ eventsFor (p.pid, sig1.name)
        (scan_once sigs [] hostname procs ts false none).appended,
      ∀ e2 ∈ eventsFor (p.pid, sig2.name)
        (scan_once sigs [] hostname procs ts false none).appended, e1 ≠ e2 := by
  refine ⟨(scan_once_key_emitted sigs [] hostname procs ts p sig1 hp h1 hm1 (by simp)).1,
    (scan_once_key_emitted sigs [] hostname procs ts p sig2 hp h2 hm2 (by simp)).1,
    ?_⟩
  intro e1 he1 e2 he2 hc
  have hk1 : keyOf e1 = (p.pid, sig1.name) :=
    eq_of_beq (List.mem_filter.mp he1).2
  have hk2 : keyOf e2 = (p.pid, sig2.name) :=
    eq_of_beq (List.mem_filter.mp he2).2
  rw [hc, hk2] at hk1
  exact hname (congrArg Prod.snd hk1).symm

/-- C4's witness: one process whose command line holds both
`api.openai.com` and `llm` matches the two distinct default signatures
`openai_api_call` and `generic_llm_keyword` and yields one record each. -/
theorem two_signatures_two_records_witness :
    (eventsFor ((7 : Int), "openai_api_call")
        (scan_once SIGNATURES [] "host"
          [⟨7, some "curl", some ["curl", "https://api.openai.com/llm"], some "bob"⟩]
          (fun _ => "t") false none).appended).length = 1
    ∧ (eventsFor ((7 : Int), "generic_llm_keyword")
        (scan_once SIGNATURES [] "host"
          [⟨7, some "curl", some ["curl", "https://api.openai.com/llm"], some "bob"⟩]
          (fun _ => "t") false none).appended).length = 1 := by
  have h := two_signatures_two_records SIGNATURES "host"
    [⟨7, some "curl", some ["curl", "https://api.openai.com/llm"], some "bob"⟩]
    (fun _ => "t")
    ⟨7, some "curl", some ["curl", "https://api.openai.com/llm"], some "bob"⟩
    { name := "openai_api_call"
      description := "Process calling OpenAI API endpoint"
      match_type := "cmdline_contains"
      pattern := "api.openai.com"
      risk := "high"
      category := "remote_llm" }
    { name := "generic_llm_keyword"
      description := "Process with generic LLM-related keyword in command line"
      match_type := "cmdline_contains"
      pattern := "llm"
      risk := "low"
      category := "generic_ai" }
    (List.mem_cons_self _ _) (by decide) (by decide) (by decide) (by decide) (by decide)
  exact ⟨h.1, h.2.1⟩

/-- C3: over the fixed table with the `"ollama"` process (cmdline
`["ollama", "serve"]`) and the `curl` process calling
`https://api.openai.com/v1/chat`, one cycle with the six default
signatures and an empty dedup set writes exactly 2 records with risks
`medium` then `high`, and an immediate second cycle over the unchanged
table writes 0 — for every timestamp source and hostname. -/
theorem default_signatures_scenario (hostname : String) (ts1 ts2 : Nat → String) :
    (scan_once SIGNATURES [] hostname
        [⟨101, some "ollama", some ["ollama", "serve"], some "alice"⟩,
         ⟨202, some "curl", some ["curl", "https://api.openai.com/v1/chat"], some "bob"⟩]
        ts1 false none).count = 2
    ∧ ((scan_once SIGNATURES [] hostname
        [⟨101, some "ollama", some ["ollama", "serve"], some "alice"⟩,
         ⟨202, some "curl", some ["curl", "https://api.openai.com/v1/chat"], some "bob"⟩]
        ts1 false none).appended.map Event.risk) = ["medium", "high"]
    ∧ (scan_once SIGNATURES
        (scan_once SIGNATURES [] hostname
          [⟨101, some "ollama", some ["ollama", "serve"], some "alice"⟩,
           ⟨202, some "curl", some ["curl", "https://api.openai.com/v1/chat"], some "bob"⟩]
          ts1 false none).seen hostname
        [⟨101, some "ollama", some ["ollama", "serve"], some "alice"⟩,
         ⟨202, some "curl", some ["curl", "https://api.openai.com/v1/chat"], some "bob"⟩]
        ts2 false none).count = 0 :=
  ⟨rfl, rfl, rfl⟩

/-! ## Proofs — the scan cycle under a write failure

A run whose write attempt `k` raises agrees with the fault-free run up to
the `k`-th event; the failing event's key is already in the dedup set (the
`seen.add` precedes `f.write`), but its record is not in the log. -/

theorem scanSigs_fail (ts : Nat → String) (h : String) (info : ProcInfo) :
    ∀ (sigs : List Signature) (st : LoopSt) (k : Nat), st.events.length ≤ k →
      ∃ (stN : LoopSt) (L : List Event),
        scanSigs ts h none info sigs st = .ok stN ∧
        stN.events = st.events ++ L ∧
        stN.seen = (L.map keyOf).reverse ++ st.seen ∧
        scanSigs ts h (some k) info sigs st =
          (if st.events.length + L.length ≤ k then .ok stN
           else .error ⟨((L.take (k - st.events.length + 1)).map keyOf).reverse ++ st.seen,
                        st.events ++ L.take (k - st.events.length)⟩)
  | [], st, k, hk => by
    refine ⟨st, [], by simp [scanSigs], by simp, by simp, ?_⟩
    rw [if_pos (by simpa using hk)]
    simp [scanSigs]
  | sig :: rest, st, k, hk => by
    by_cases hm : match_signature sig info
    · by_cases hseen : (info.pid, sig.name) ∈ st.seen
      · obtain ⟨stN, L, hok, hev, hsn, hfail⟩ := scanSigs_fail ts h info rest st k hk
        exact ⟨stN, L, by simpa [scanSigs, hm, hseen] using hok, hev, hsn,
          by simpa [scanSigs, hm, hseen] using hfail⟩
      · by_cases hkn : k = st.events.length
        · obtain ⟨L', hrun', _, _, _⟩ :=
            scanSigs_none ts h info rest
              ⟨(info.pid, sig.name) :: st.seen,
               st.events ++ [mkEvent (ts st.events.length) h info sig]⟩
          refine ⟨⟨(L'.map keyOf).reverse ++ ((info.pid, sig.name) :: st.seen),
              (st.events ++ [mkEvent (ts st.events.length) h info sig]) ++ L'⟩,
            mkEvent (ts st.events.length) h info sig :: L', ?_, ?_, ?_, ?_⟩
          · rw [show scanSigs ts h none info (sig :: rest) st
                = scanSigs ts h none info rest
                    ⟨(info.pid, sig.name) :: st.seen,
                     st.events ++ [mkEvent (ts st.events.length) h info sig]⟩
              from by simp [scanSigs, hm, hseen]]
            exact hrun'
          · simp
          · simp [keyOf_mkEvent]
          · subst hkn
            rw [show scanSigs ts h (some (st.events.length)) info (sig :: rest) st
                = .error ⟨(info.pid, sig.name) :: st.seen, st.events⟩
              from by simp [scanSigs, hm, hseen]]
            rw [if_neg (by simp)]
            simp [keyOf_mkEvent]
        · have hk' : st.events.length + 1 ≤ k := by omega
          obtain ⟨stN, L', hok, hev, hsn, hfail⟩ :=
            scanSigs_fail ts h info rest
              ⟨(info.pid, sig.name) :: st.seen,
               st.events ++ [mkEvent (ts st.events.length) h info sig]⟩ k
              (by simpa using hk')
          refine ⟨stN, mkEvent (ts st.events.length) h info sig :: L', ?_, ?_, ?_, ?_⟩
          · rw [show scanSigs ts h none info (sig :: rest) st
                = scanSigs ts h none info rest
                    ⟨(info.pid, sig.name) :: st.seen,
                     st.events ++ [mkEvent (ts st.events.length) h info sig]⟩
              from by simp [scanSigs, hm, hseen]]
            exact hok
          · simp at hev
            simp [hev]
          · simp at hsn
            simp [hsn, keyOf_mkEvent]
          · rw [show scanSigs ts h (some k) info (sig :: rest) st
                = scanSigs ts h (some k) info rest
                    ⟨(info.pid, sig.name) :: st.seen,
                     st.events ++ [mkEvent (ts st.events.length) h info sig]⟩
              from by simp [scanSigs, hm, hseen, hkn], hfail]
            simp only [List.length_append, List.length_cons, List.length_nil,
              Nat.zero_add]
            by_cases hc : st.events.length + 1 + L'.length ≤ k
            · rw [if_pos hc, if_pos (by omega)]
            · rw [if_neg hc, if_neg (by omega)]
              have h2 : k - st.events.length = (k - (st.events.length + 1)) + 1 := by omega
              rw [h2, List.take_succ_cons, List.take_succ_cons]
              simp [keyOf_mkEvent]
    · obtain ⟨stN, L, hok, hev, hsn, hfail⟩ := scanSigs_fail ts h info rest st k hk
      exact ⟨stN, L, by simpa [scanSigs, hm] using hok, hev, hsn,
        by simpa [scanSigs, hm] using hfail⟩
  termination_by sigs => sigs.length

theorem scanProcs_fail (sigs : List Signature) (ts : Nat → String) (h : String) :
    ∀ (procs : List ProcInfo) (st : LoopSt) (k : Nat), st.events.length ≤ k →
      ∃ (stN : LoopSt) (L : List Event),
        scanProcs sigs ts h none procs st = .ok stN ∧
        stN.events = st.events ++ L ∧
        stN.seen = (L.map keyOf).reverse ++ st.seen ∧
        scanProcs sigs ts h (some k) procs st =
          (if st.events.length + L.length ≤ k then .ok stN
           else .error ⟨((L.take (k - st.events.length + 1)).map keyOf).reverse ++ st.seen,
                        st.events ++ L.take (k - st.events.length)⟩)
  | [], st, k, hk => by
    refine ⟨st, [], by simp [scanProcs], by simp, by simp, ?_⟩
    rw [if_pos (by simpa using hk)]
    simp [scanProcs]
  | p :: ps, st, k, hk => by
    obtain ⟨st1, L1, hok1, hev1, hsn1, hfail1⟩ := scanSigs_fail ts h p sigs st k hk
    by_cases hc1 : st.events.length + L1.length ≤ k
    · obtain ⟨stN, L2, hok2, hev2, hsn2, hfail2⟩ :=
        scanProcs_fail sigs ts h ps st1 k (by rw [hev1]; simpa using hc1)
      refine ⟨stN, L1 ++ L2, ?_, ?_, ?_, ?_⟩
      · rw [show scanProcs sigs ts h none (p :: ps) st = scanProcs sigs ts h none ps st1
            from by simp [scanProcs, hok1]]
        exact hok2
      · rw [hev2, hev1, List.append_assoc]
      · rw [hsn2, hsn1, List.map_append, List.reverse_append, List.append_assoc]
      · have hsig1 : scanSigs ts h (some k) p sigs st = .ok st1 := by
          rw [hfail1, if_pos hc1]
        rw [show scanProcs sigs ts h (some k) (p :: ps) st
            = scanProcs sigs ts h (some k) ps st1 from by simp [scanProcs, hsig1], hfail2]
        simp only [hev1, hsn1, List.length_append]
        by_cases hc2 : st.events.length + L1.length + L2.length ≤ k
        · rw [if_pos hc2, if_pos (by omega)]
        · rw [if_neg hc2, if_neg (by omega)]
          have e1 : k - st.events.length + 1 - L1.length
              = k - (st.events.length + L1.length) + 1 := by omega
          have e2 : k - st.events.length - L1.length
              = k - (st.events.length + L1.length) := by omega
          have t1 : (L1 ++ L2).take (k - st.events.length + 1)
              = L1 ++ L2.take (k - (st.events.length + L1.length) + 1) := by
            rw [List.take_append_eq_append_take, List.take_of_length_le (by omega), e1]
          have t2 : (L1 ++ L2).take (k - st.events.length)
              = L1 ++ L2.take (k - (st.events.length + L1.length)) := by
            rw [List.take_append_eq_append_take, List.take_of_length_le (by omega), e2]
          rw [t1, t2]
          simp only [List.map_append, List.reverse_append, List.append_assoc]
    · obtain ⟨L2, hok2, _, _, _⟩ := scanProcs_none sigs ts h ps st1
      refine ⟨⟨(L2.map keyOf).reverse ++ st1.seen, st1.events ++ L2⟩, L1 ++ L2, ?_, ?_, ?_, ?_⟩
      · rw [show scanProcs sigs ts h none (p :: ps) st = scanProcs sigs ts h none ps st1
            from by simp [scanProcs, hok1]]
        exact hok2
      · rw [hev1, List.append_assoc]
      · rw [hsn1, List.map_append, List.reverse_append, List.append_assoc]
      · have hsig1 : scanSigs ts h (some k) p sigs st
            = .error ⟨((L1.take (k - st.events.length + 1)).map keyOf).reverse ++ st.seen,
                      st.events ++ L1.take (k - st.events.length)⟩ := by
          rw [hfail1, if_neg hc1]
        rw [show scanProcs sigs ts h (some k) (p :: ps) st
            = .error ⟨((L1.take (k - st.events.length + 1)).map keyOf).reverse ++ st.seen,
                      st.events ++ L1.take (k - st.events.length)⟩
          from by simp [scanProcs, hsig1]]
        rw [if_neg (by simp only [List.length_append]; omega)]
        rw [List.take_append_of_le_length (by omega),
          List.take_append_of_le_length (by omega)]
  termination_by procs => procs.length

/-- `scan_once` with the write at index `k` raising, against the
fault-free cycle: same prefix of events, the failing event's key consed
into `seen`, the failure reported. -/
theorem scan_once_fail (sigs : List Signature) (seen : List (Int × String)) (h : String)
    (procs : List ProcInfo) (ts : Nat → String) (k : Nat) :
    ∃ L : List Event,
      scan_once sigs seen h procs ts false none
          = ⟨(L.map keyOf).reverse ++ seen, L, L.length, false⟩ ∧
      scan_once sigs seen h procs ts false (some k)
          = (if L.length ≤ k then ⟨(L.map keyOf).reverse ++ seen, L, L.length, false⟩
             else ⟨((L.take (k + 1)).map keyOf).reverse ++ seen,
                   L.take k, (L.take k).length, true⟩) := by
  obtain ⟨stN, L, hok, hev, hsn, hfail⟩ := scanProcs_fail sigs ts h procs ⟨seen, []⟩ k (by simp)
  simp only [List.nil_append] at hev hsn
  refine ⟨L, ?_, ?_⟩
  · rcases stN with ⟨sn, ev⟩
    simp only at hev hsn
    subst hev hsn
    simp [scan_once, hok]
  · by_cases hc : L.length ≤ k
    · rw [if_pos hc]
      have hrun : scanProcs sigs ts h (some k) procs ⟨seen, []⟩ = .ok stN := by
        rw [hfail, if_pos (by simpa using hc)]
      rcases stN with ⟨sn, ev⟩
      simp only at hev hsn
      subst hev hsn
      simp [scan_once, hrun]
    · rw [if_neg hc]
      have hrun : scanProcs sigs ts h (some k) procs ⟨seen, []⟩
          = .error ⟨((L.take (k + 1)).map keyOf).reverse ++ seen, L.take k⟩ := by
        rw [hfail, if_neg (by simpa using hc)]
        simp
      simp [scan_once, hrun]

/-- Every scheduled cycle runs and reports a count, whatever faults each
cycle's plan injects: the loop never stops early. -/
theorem runPlans_counts_length (sigs : List Signature) (h : String) :
    ∀ (plans : List CyclePlan) (st : RunSt),
      (runPlans sigs h plans st).counts.length = st.counts.length + plans.length
  | [], st => by simp [runPlans]
  | pl :: rest, st => by
    rw [show runPlans sigs h (pl :: rest) st
        = runPlans sigs h rest
            ⟨(scan_once sigs st.seen h pl.procs pl.ts pl.openFail pl.failAt).seen,
             st.log ++ (scan_once sigs st.seen h pl.procs pl.ts pl.openFail pl.failAt).appended,
             st.counts ++ [(scan_once sigs st.seen h pl.procs pl.ts pl.openFail pl.failAt).count],
             st.reports ++ [(scan_once sigs st.seen h pl.procs pl.ts pl.openFail pl.failAt).reported]⟩
      from rfl, runPlans_counts_length sigs h rest _]
    simp
    omega

/-- C5: a log I/O failure never escapes the cycle.  If the write with
index `k` raises (`k` below the fault-free cycle's event count), the
cycle still returns, reports the failure, and its count and appended
events are exactly the ones written before the failure; an `open` failure
likewise reports and returns 0; and the scheduling loop goes on to run
every remaining planned cycle. -/
theorem io_failure_never_fatal (sigs : List Signature) (seen0 : List (Int × String))
    (h : String) (procs : List ProcInfo) (ts : Nat → String) (k : Nat)
    (hk : k < (scan_once sigs seen0 h procs ts false none).count) :
    (scan_once sigs seen0 h procs ts false (some k)).reported = true
    ∧ (scan_once sigs seen0 h procs ts false (some k)).count = k
    ∧ (scan_once sigs seen0 h procs ts false (some k)).appended
        = (scan_once sigs seen0 h procs ts false none).appended.take k
    ∧ (scan_once sigs seen0 h procs ts true none).reported = true
    ∧ (scan_once sigs seen0 h procs ts true none).count = 0
    ∧ ∀ (rest : List CyclePlan) (st : RunSt),
        (runPlans sigs h (⟨procs, ts, false, some k⟩ :: rest) st).counts.length
          = st.counts.length + (1 + rest.length) := by
  obtain ⟨L, hN, hF⟩ := scan_once_fail sigs seen0 h procs ts k
  have hkL : k < L.length := by
    rw [hN] at hk
    simpa using hk
  rw [if_neg (by omega)] at hF
  refine ⟨by rw [hF], ?_, by rw [hF, hN], by rfl, by rfl, ?_⟩
  · rw [hF]
    show (L.take k).length = k
    simp [List.length_take]
    omega
  · intro rest st
    rw [runPlans_counts_length sigs h (⟨procs, ts, false, some k⟩ :: rest) st]
    simp
    omega

/-- C5's witness: with the two-process fixture the fault-free cycle
writes two events; injecting a failure on the second write (`k = 1`)
reports the failure and returns count 1. -/
theorem io_failure_never_fatal_witness :
    (scan_once SIGNATURES [] "host"
        [⟨101, some "ollama", some ["ollama", "serve"], some "alice"⟩,
         ⟨202, some "curl", some ["curl", "https://api.openai.com/v1/chat"], some "bob"⟩]
        (fun _ => "t") false (some 1)).reported = true
    ∧ (scan_once SIGNATURES [] "host"
        [⟨101, some "ollama", some ["ollama", "serve"], some "alice"⟩,
         ⟨202, some "curl", some ["curl", "https://api.openai.com/v1/chat"], some "bob"⟩]
        (fun _ => "t") false (some 1)).count = 1 := by
  have h := io_failure_never_fatal SIGNATURES [] "host"
    [⟨101, some "ollama", some ["ollama", "serve"], some "alice"⟩,
     ⟨202, some "curl", some ["curl", "https://api.openai.com/v1/chat"], some "bob"⟩]
    (fun _ => "t") 1 (by decide)
  exact ⟨h.1, h.2.1⟩

/-- C10: the dedup key is added before the write, so when the write of
the event at index `k` raises, that event's key is in the returned dedup
set although its record was not appended — and any later fault-free cycle
stays silent for that key. -/
theorem seen_add_precedes_write (sigs : List Signature) (seen0 : List (Int × String))
    (h : String) (procs : List ProcInfo) (ts : Nat → String) (k : Nat) (e : Event)
    (hke : (scan_once sigs seen0 h procs ts false none).appended[k]? = some e) :
    keyOf e ∈ (scan_once sigs seen0 h procs ts false (some k)).seen
    ∧ eventsFor (keyOf e) (scan_once sigs seen0 h procs ts false (some k)).appended = []
    ∧ ∀ (procs2 : List ProcInfo) (ts2 : Nat → String),
        eventsFor (keyOf e)
          (scan_once sigs (scan_once sigs seen0 h procs ts false (some k)).seen h
            procs2 ts2 false none).appended = [] := by
  obtain ⟨L, hN, hF⟩ := scan_once_fail sigs seen0 h procs ts k
  obtain ⟨L2, hN2, hfr2, hnd2, _⟩ := scan_once_none sigs seen0 h procs ts
  have hLL : L = L2 := congrArg ScanResult.appended (hN.symm.trans hN2)
  subst hLL
  rw [hN] at hke
  simp only at hke
  have hkL : k < L.length := (List.getElem?_eq_some.mp hke).1
  have hgk : L[k] = e := (List.getElem?_eq_some.mp hke).2
  rw [if_neg (by omega)] at hF
  have hmemtake : e ∈ L.take (k + 1) := by
    rw [List.take_succ, hke]
    exact List.mem_append.mpr (Or.inr (List.mem_singleton.mpr rfl))
  have hseen : keyOf e ∈ (scan_once sigs seen0 h procs ts false (some k)).seen := by
    rw [hF]
    exact List.mem_append.mpr (Or.inl
      (List.mem_reverse.mpr (List.mem_map.mpr ⟨e, hmemtake, rfl⟩)))
  refine ⟨hseen, ?_, ?_⟩
  · rw [hF]
    refine eventsFor_nil_of_not_mem _ _ ?_
    intro e' he' hc
    have hmap : (L.map keyOf).Nodup := hnd2
    have hsplit : L.map keyOf = (L.take k).map keyOf ++ (L.drop k).map keyOf := by
      rw [← List.map_append, List.take_append_drop]
    rw [hsplit] at hmap
    have hdis := List.disjoint_of_nodup_append hmap
    have h1 : keyOf e ∈ (L.take k).map keyOf := by
      rw [← hc]
      exact List.mem_map.mpr ⟨e', he', rfl⟩
    have h2 : keyOf e ∈ (L.drop k).map keyOf := by
      refine List.mem_map.mpr ⟨e, ?_, rfl⟩
      have : (L.drop k)[0]? = some e := by
        rw [List.getElem?_drop]
        simpa using hke
      exact List.getElem?_mem this
    exact hdis h1 h2
  · intro procs2 ts2
    exact (scan_once_key_suppressed sigs _ h procs2 ts2 (keyOf e) hseen).1

/-- C10's witness: failing the very first write (`k = 0`) of the fixture
cycle leaves the ollama key in the dedup set, appends nothing, and a
repeat cycle over the same table emits nothing for that key. -/
theorem seen_add_precedes_write_witness :
    ((101 : Int), "ollama_local_llm")
        ∈ (scan_once SIGNATURES [] "host"
            [⟨101, some "ollama", some ["ollama", "serve"], some "alice"⟩]
            (fun _ => "t") false (some 0)).seen
    ∧ eventsFor ((101 : Int), "ollama_local_llm")
        (scan_once SIGNATURES [] "host"
          [⟨101, some "ollama", some ["ollama", "serve"], some "alice"⟩]
          (fun _ => "t") false (some 0)).appended = [] := by
  have h := seen_add_precedes_write SIGNATURES [] "host"
    [⟨101, some "ollama", some ["ollama", "serve"], some "alice"⟩]
    (fun _ => "t") 0
    { timestamp_utc := "t", hostname := "host", username := "alice", pid := 101,
      process_name := "ollama", cmdline := ["ollama", "serve"],
      signature_name := "ollama_local_llm",
      signature_description := "Local LLM runtime (Ollama)",
      risk := "medium", category := "local_llm", version := "v0.1",
      product := "Red Specter AI Usage Watchdog" }
    rfl
  exact ⟨h.1, h.2.1⟩

/-! ## Proofs — the viewer

`JVal.beq` is Python's `==` on loaded values: structural equality. -/

mutual

theorem JVal.beq_iff : ∀ a b : JVal, JVal.beq a b = true ↔ a = b
  | .jnull, b => by cases b <;> simp [JVal.beq]
  | .jbool x, b => by cases b <;> simp [JVal.beq]
  | .jint x, b => by cases b <;> simp [JVal.beq]
  | .jfloat x, b => by cases b <;> simp [JVal.beq]
  | .jstr x, b => by cases b <;> simp [JVal.beq]
  | .jarr xs, b => by
      cases b <;> simp [JVal.beq]
      exact JVal.beqList_iff xs _
  | .jobj ms, b => by
      cases b <;> simp [JVal.beq]
      exact JVal.beqMembers_iff ms _

theorem JVal.beqList_iff : ∀ as' bs' : List JVal, JVal.beqList as' bs' = true ↔ as' = bs'
  | [], bs' => by cases bs' <;> simp [JVal.beqList]
  | a :: as', bs' => by
      cases bs' with
      | nil => simp [JVal.beqList]
      | cons b bs' =>
          simp [JVal.beqList, Bool.and_eq_true, JVal.beq_iff a b, JVal.beqList_iff as' bs']

theorem JVal.beqMembers_iff :
    ∀ as' bs' : List (String × JVal), JVal.beqMembers as' bs' = true ↔ as' = bs'
  | [], bs' => by cases bs' <;> simp [JVal.beqMembers]
  | (k, v) :: as', bs' => by
      cases bs' with
      | nil => simp [JVal.beqMembers]
      | cons b bs' =>
          obtain ⟨k', v'⟩ := b
          simp [JVal.beqMembers, Bool.and_eq_true, JVal.beq_iff v v',
            JVal.beqMembers_iff as' bs', and_assoc]

end

theorem counterCount_cons (y : JVal) (n : Nat) (c : List (JVal × Nat)) (x : JVal) :
    counterCount ((y, n) :: c) x = if JVal.beq y x then n else counterCount c x := by
  by_cases h : JVal.beq y x = true <;> simp [counterCount, List.find?, h]

theorem counterCount_counterAdd (c : List (JVal × Nat)) (a x : JVal) :
    counterCount (counterAdd c a) x
      = counterCount c x + (if JVal.beq a x then 1 else 0) := by
  induction c with
  | nil =>
    by_cases h : JVal.beq a x = true <;>
      simp [counterAdd, counterCount, List.find?, h]
  | cons p rest ih =>
    obtain ⟨y, n⟩ := p
    by_cases hya : JVal.beq y a = true
    · obtain rfl : y = a := (JVal.beq_iff y a).mp hya
      rw [show counterAdd ((y, n) :: rest) y = (y, n + 1) :: rest from by
        simp [counterAdd, hya]]
      by_cases hx : JVal.beq y x = true <;>
        simp [counterCount_cons, hx]
    · rw [show counterAdd ((y, n) :: rest) a = (y, n) :: counterAdd rest a from by
        simp [counterAdd, hya]]
      by_cases hx : JVal.beq y x = true
      · have hax : ¬JVal.beq a x = true := by
          intro hax
          exact hya ((JVal.beq_iff y a).mpr
            (((JVal.beq_iff y x).mp hx).trans ((JVal.beq_iff a x).mp hax).symm))
        simp [counterCount_cons, hx, hax]
      · simp [counterCount_cons, hx, ih]

theorem counterCount_foldl (l : List JVal) :
    ∀ (c : List (JVal × Nat)) (x : JVal),
      counterCount (l.foldl counterAdd c) x
        = counterCount c x + l.countP (fun y => JVal.beq y x) := by
  induction l with
  | nil =>
    intro c x
    simp
  | cons a l ih =>
    intro c x
    rw [List.foldl_cons, ih, counterCount_counterAdd, List.countP_cons]
    by_cases h : JVal.beq a x = true
    · simp [h]
      omega
    · simp [h]

/-- A built `Counter`'s count for `x` is how many inputs equal `x`. -/
theorem counterCount_mkCounter (l : List JVal) (x : JVal) :
    counterCount (mkCounter l) x = l.countP (fun y => JVal.beq y x) := by
  have h := counterCount_foldl l [] x
  simpa [mkCounter, counterCount] using h

theorem listMin_perm {DT : Type} [LinearOrder DT] {l1 l2 : List DT} (h : l1.Perm l2) :
    listMin l1 = listMin l2 :=
  h.foldl_eq'
    (fun x _ y _ z => by
      cases z with
      | none => simp [foldMin, min_comm]
      | some m => simp [foldMin, inf_right_comm])
    none

theorem listMax_perm {DT : Type} [LinearOrder DT] {l1 l2 : List DT} (h : l1.Perm l2) :
    listMax l1 = listMax l2 :=
  h.foldl_eq'
    (fun x _ y _ z => by
      cases z with
      | none => simp [foldMax, max_comm]
      | some m => simp [foldMax, sup_right_comm])
    none

/-- C7 counterexample, refuting the claim as stated: the log line `5`
fails to parse as a well-formed record (it is not a JSON object), yet the
loader keeps it, the loaded sequence and total include it, and summarising
then raises — `evt.get` on a non-dict, modelled by the `none` result. -/
theorem nonrecord_line_kept :
    load_events ["5"] = [JVal.jint 5]
    ∧ isObjB (JVal.jint 5) = false
    ∧ print_summary (fun _ => (none : Option Nat)) (load_events ["5"]) 5 = none :=
  ⟨rfl, rfl, rfl⟩

/-- C7 (amended): a line that fails to parse as a JSON document —
`json.loads` raises `JSONDecodeError` — is skipped by the loader: the
loaded sequence, and with it the reported total, are as if the line were
absent, and nothing escapes loading (the parse failure is caught).  Lines
that parse to non-record JSON values are kept; see the counterexample. -/
theorem malformed_line_skipped (pre post : List String) (line : String)
    (hbad : jsonParse (pstrip line) = none) :
    load_events (pre ++ line :: post) = load_events pre ++ load_events post := by
  induction pre with
  | nil =>
    rw [List.nil_append, load_events]
    by_cases he : pstrip line = ""
    · simp [he, load_events]
    · simp [he, hbad, load_events]
  | cons l0 pre ih =>
    rw [List.cons_append, load_events, load_events]
    by_cases he : pstrip l0 = ""
    · simp [he, ih]
    · cases hp : jsonParse (pstrip l0) <;> simp [he, hp, ih]

/-- C7's witness: a `not json` line between two record lines is dropped
and the two records load as if it were absent. -/
theorem malformed_line_skipped_witness :
    jsonParse (pstrip "not json") = none
    ∧ load_events
        (["\x7b\"risk\": \"low\"\x7d"] ++ "not json" :: ["\x7b\"risk\": \"high\"\x7d"])
        = load_events ["\x7b\"risk\": \"low\"\x7d"] ++ load_events ["\x7b\"risk\": \"high\"\x7d"] :=
  ⟨rfl, malformed_line_skipped ["\x7b\"risk\": \"low\"\x7d"] ["\x7b\"risk\": \"high\"\x7d"]
    "not json" rfl⟩

/-- C9 counterexample, refuting the claim as stated: on an empty log the
viewer takes the early `"No events found in log."` return — it does not
produce a report, so no total of zero and no `"unknown"` time range are
reported. -/
theorem empty_log_no_report :
    print_summary (fun _ => (none : Option Nat)) ([] : List JVal) 5
        = some SummaryOut.noEvents
    ∧ Option.map SummaryOut.isReport
        (print_summary (fun _ => (none : Option Nat)) ([] : List JVal) 5) = some false :=
  ⟨rfl, rfl⟩

/-- C9 (amended): with the log file absent or empty the aggregator raises
nothing: it loads zero events and returns after reporting that no events
were found — the zero total and `"unknown"` time range of the claim are
not printed on this path (the `"unknown"` range appears only when events
exist but none of their timestamps parses). -/
theorem empty_log_graceful {DT : Type} [LinearOrder DT] (fromiso : String → Option DT)
    (top : Nat) :
    load_events_file none = []
    ∧ load_events [] = []
    ∧ print_summary fromiso ([] : List JVal) top = some SummaryOut.noEvents :=
  ⟨rfl, rfl, rfl⟩

theorem perm_isObjB_all {l1 l2 : List JVal} (h : l1.Perm l2) :
    l1.all isObjB = l2.all isObjB := by
  by_cases hall : l1.all isObjB = true
  · rw [hall]
    symm
    rw [List.all_eq_true] at hall ⊢
    exact fun x hx => hall x (h.mem_iff.mpr hx)
  · have h2 : ¬l2.all isObjB = true := by
      rw [List.all_eq_true] at hall ⊢
      intro hc
      exact hall (fun x hx => hc x (h.mem_iff.mp hx))
    rw [Bool.not_eq_true] at hall h2
    rw [hall, h2]

/-- C8 counterexample, refuting the claim as stated: two events whose
risks tie at count 1, in the two orders, give different by-risk top-N
tables — `most_common` breaks count ties by first-seen order, which the
permutation changes. -/
theorem summary_order_dependence :
    ([JVal.jobj [("risk", JVal.jstr "low")],
      JVal.jobj [("risk", JVal.jstr "high")]].Perm
      [JVal.jobj [("risk", JVal.jstr "high")],
       JVal.jobj [("risk", JVal.jstr "low")]])
    ∧ Option.map SummaryOut.byRiskTable
        (print_summary (fun _ => (none : Option Nat))
          [JVal.jobj [("risk", JVal.jstr "low")],
           JVal.jobj [("risk", JVal.jstr "high")]] 5)
        = some [(JVal.jstr "low", 1), (JVal.jstr "high", 1)]
    ∧ Option.map SummaryOut.byRiskTable
        (print_summary (fun _ => (none : Option Nat))
          [JVal.jobj [("risk", JVal.jstr "high")],
           JVal.jobj [("risk", JVal.jstr "low")]] 5)
        = some [(JVal.jstr "high", 1), (JVal.jstr "low", 1)] :=
  ⟨List.Perm.swap _ _ _, rfl, rfl⟩

/-- C8 (amended): the aggregator's summary is order-invariant up to the
display order of tied table rows: permuting the events preserves the
branch taken (empty / exception / report) and, for reports, the total,
the time range, and every key's frequency count in each of the four
tables; only the printed order of equal-count rows can differ. -/
theorem summary_perm_invariant {DT : Type} [LinearOrder DT] (fromiso : String → Option DT)
    (evts evts' : List JVal) (top : Nat) (hperm : evts.Perm evts') :
    summariesAgree (print_summary fromiso evts top) (print_summary fromiso evts' top) := by
  by_cases he : evts.isEmpty = true
  · have h1 : evts = [] := by simpa using he
    subst h1
    have h2 : evts' = [] := List.length_eq_zero.mp (hperm.length_eq.symm.trans rfl)
    subst h2
    simp [print_summary, summariesAgree]
  · have he' : ¬evts'.isEmpty = true := by
      intro hc
      have h2 : evts' = [] := by simpa using hc
      subst h2
      exact he (by simpa using List.length_eq_zero.mp hperm.length_eq)
    by_cases hall : evts.all isObjB = true
    · have hall' : evts'.all isObjB = true := perm_isObjB_all hperm ▸ hall
      simp only [print_summary, if_neg he, if_neg he', if_pos hall, if_pos hall',
        summariesAgree]
      have hts : (evts.filterMap (fun e => parse_ts fromiso (dictGet? "timestamp_utc" e))).Perm
          (evts'.filterMap (fun e => parse_ts fromiso (dictGet? "timestamp_utc" e))) :=
        hperm.filterMap _
      refine ⟨hperm.length_eq, ?_, ?_, ?_, ?_, ?_⟩
      · rw [listMin_perm hts, listMax_perm hts]
      · intro x
        rw [counterCount_mkCounter, counterCount_mkCounter]
        exact (hperm.map (dictGetD "risk" (.jstr "unknown"))).countP_eq _
      · intro x
        rw [counterCount_mkCounter, counterCount_mkCounter]
        exact (hperm.map (dictGetD "signature_name" (.jstr "unknown"))).countP_eq _
      · intro x
        rw [counterCount_mkCounter, counterCount_mkCounter]
        exact (hperm.map (dictGetD "username" (.jstr "unknown"))).countP_eq _
      · intro x
        rw [counterCount_mkCounter, counterCount_mkCounter]
        exact (hperm.map (dictGetD "hostname" (.jstr "unknown"))).countP_eq _
    · have hall' : ¬evts'.all isObjB = true := by
        rw [← perm_isObjB_all hperm]
        exact hall
      simp [print_summary, he, he', hall, hall', summariesAgree]

/-- C8's witness: swapping the two fixture events keeps both scans in the
report branch with agreeing totals, time ranges, and counts. -/
theorem summary_perm_invariant_witness :
    summariesAgree
      (print_summary (fun _ => (none : Option Nat))
        [JVal.jobj [("risk", JVal.jstr "low")],
         JVal.jobj [("risk", JVal.jstr "high")]] 5)
      (print_summary (fun _ => (none : Option Nat))
        [JVal.jobj [("risk", JVal.jstr "high")],
         JVal.jobj [("risk", JVal.jstr "low")]] 5) :=
  summary_perm_invariant (fun _ => (none : Option Nat))
    [JVal.jobj [("risk", JVal.jstr "low")], JVal.jobj [("risk", JVal.jstr "high")]]
    [JVal.jobj [("risk", JVal.jstr "high")], JVal.jobj [("risk", JVal.jstr "low")]]
    5 (List.Perm.swap _ _ _)

/-! ## Proofs — the JSON codec (claim C6)

The printer (`dumpsV`) and the parser (`parseVal`) invert on the values
the agent serializes (`Tidy` values). -/

theorem char_ne_of_toNat {c d : Char} (h : ¬c.toNat = d.toNat) : ¬c = d :=
  fun e => h (congrArg Char.toNat e)

theorem isDigitCh_toNat {c : Char} (h : isDigitCh c = true) :
    48 ≤ c.toNat ∧ c.toNat ≤ 57 := by
  simpa [isDigitCh, Bool.and_eq_true] using h

theorem digitChar_spec : ∀ m : Fin 10,
    (digitChar m.val).toNat = 48 + m.val ∧ isDigitCh (digitChar m.val) = true := by
  decide

theorem hexChar_spec : ∀ m : Fin 16, hexv (hexChar m.val) = some m.val := by
  decide

theorem natChars_append (n : Nat) : ∀ acc : List Char,
    natChars n acc = natChars n [] ++ acc := by
  induction n using Nat.strong_induction_on with
  | _ n ih =>
    intro acc
    conv_lhs => rw [natChars]
    conv_rhs => rw [natChars]
    by_cases h : n < 10
    · simp [h]
    · rw [if_neg h, if_neg h, ih (n / 10) (by omega), ih (n / 10) (by omega)
        (digitChar (n % 10) :: [])]
      simp

theorem natChars_digits (n : Nat) : ∀ c ∈ natChars n [], isDigitCh c = true := by
  induction n using Nat.strong_induction_on with
  | _ n ih =>
    intro c hc
    rw [natChars] at hc
    by_cases h : n < 10
    · rw [if_pos h] at hc
      rcases List.mem_singleton.mp hc with rfl
      exact (digitChar_spec ⟨n, h⟩).2
    · rw [if_neg h, natChars_append] at hc
      rcases List.mem_append.mp hc with hc | hc
      · exact ih (n / 10) (by omega) c hc
      · rcases List.mem_singleton.mp hc with rfl
        exact (digitChar_spec ⟨n % 10, Nat.mod_lt _ (by omega)⟩).2

theorem natChars_ne_nil (n : Nat) : natChars n [] ≠ [] := by
  rw [natChars]
  by_cases h : n < 10
  · simp [h]
  · rw [if_neg h, natChars_append]
    simp

theorem natChars_pos_head (n : Nat) (hn : 0 < n) :
    ∃ c t, natChars n [] = c :: t ∧ isDigitCh c = true ∧ ¬c = '0' := by
  induction n using Nat.strong_induction_on with
  | _ n ih =>
    rw [natChars]
    by_cases h : n < 10
    · refine ⟨digitChar n, [], by simp [h], (digitChar_spec ⟨n, h⟩).2, ?_⟩
      refine char_ne_of_toNat ?_
      have hv : (digitChar n).toNat = 48 + n := (digitChar_spec ⟨n, h⟩).1
      rw [hv, show '0'.toNat = 48 from rfl]
      omega
    · obtain ⟨c, t, hct, hd, h0⟩ := ih (n / 10) (by omega) (by omega)
      rw [if_neg h, natChars_append, hct]
      exact ⟨c, t ++ [digitChar (n % 10)], by simp, hd, h0⟩

theorem digitsVal_natChars (n : Nat) : digitsVal (natChars n []) = n := by
  induction n using Nat.strong_induction_on with
  | _ n ih =>
    by_cases h : n < 10
    · rw [natChars, if_pos h]
      have hv : (digitChar n).toNat = 48 + n := (digitChar_spec ⟨n, h⟩).1
      simp [digitsVal, hv]
    · rw [natChars, if_neg h, natChars_append]
      have hv : (digitChar (n % 10)).toNat = 48 + n % 10 :=
        (digitChar_spec ⟨n % 10, Nat.mod_lt _ (by omega)⟩).1
      have ihv := ih (n / 10) (by omega)
      rw [digitsVal, List.foldl_append]
      rw [digitsVal] at ihv
      rw [ihv, List.foldl_cons, List.foldl_nil, hv]
      omega

theorem span_digits (ds rest : List Char)
    (hds : ∀ c ∈ ds, isDigitCh c = true)
    (hrest : ∀ c t, rest = c :: t → isDigitCh c = false) :
    (ds ++ rest).span isDigitCh = (ds, rest) := by
  rw [List.span_eq_take_drop]
  induction ds with
  | nil =>
    cases rest with
    | nil => rfl
    | cons c t =>
      have := hrest c t rfl
      simp [List.takeWhile_cons, List.dropWhile_cons, this]
  | cons d ds ih =>
    have hd := hds d (List.mem_cons_self _ _)
    have ih' := ih (fun c hc => hds c (List.mem_cons.mpr (Or.inr hc)))
    simp only [List.cons_append, List.takeWhile_cons, List.dropWhile_cons, hd]
    simp only [Prod.mk.injEq] at ih'
    simp [ih'.1, ih'.2]

theorem numDelim_head {c : Char} {t : List Char} (h : numDelim (c :: t) = true) :
    isDigitCh c = false ∧ ¬c = '.' ∧ ¬c = 'e' ∧ ¬c = 'E' := by
  simpa [numDelim, Bool.or_eq_false_iff, decide_eq_false_iff_not, and_assoc] using h

theorem splitSign_not_minus {c : Char} (t : List Char) (h : ¬c = '-') :
    splitSign (c :: t) = (false, c :: t) := by
  rw [splitSign.eq_def]
  split
  · rename_i r heq
    injection heq with h1 h2
    exact absurd h1 h
  · rfl

theorem spanFrac_delim (l : List Char) (h : numDelim l = true) : spanFrac l = ([], l) := by
  cases l with
  | nil => rfl
  | cons c t =>
    obtain ⟨-, hdot, -, -⟩ := numDelim_head h
    rw [spanFrac.eq_def]
    split
    · rename_i r2 heq
      injection heq with h1 h2
      exact absurd h1 hdot
    · rfl

theorem spanExp_delim (l : List Char) (h : numDelim l = true) : spanExp l = ([], l) := by
  cases l with
  | nil => rfl
  | cons c t =>
    obtain ⟨-, -, he, hE⟩ := numDelim_head h
    rw [spanExp.eq_def]
    simp [he, hE]

/-- The digit-run core of `parseNum`: an optional sign, a digit run with
no forbidden leading zero, then a delimiter, yields exactly the int. -/
theorem parseNum_digit_run (sgn : Bool) (ds rest : List Char)
    (hds : ∀ c ∈ ds, isDigitCh c = true) (hne : ds ≠ [])
    (hlead : (∀ t, ¬ds = '0' :: t) ∨ ds = ['0'])
    (hrest : numDelim rest = true) :
    parseNum ((if sgn then ['-'] else []) ++ ds ++ rest)
      = some (.jint ((if sgn then -1 else 1) * (digitsVal ds : Int)), rest) := by
  obtain ⟨d, ds', rfl⟩ : ∃ d ds', ds = d :: ds' := by
    cases ds with
    | nil => exact absurd rfl hne
    | cons d ds' => exact ⟨d, ds', rfl⟩
  have hd : isDigitCh d = true := hds d (List.mem_cons_self _ _)
  have hdm : ¬d = '-' := by
    refine char_ne_of_toNat ?_
    have h48 := isDigitCh_toNat hd
    rw [show '-'.toNat = 45 from rfl]
    omega
  have hsgn : splitSign ((if sgn then ['-'] else []) ++ (d :: ds') ++ rest)
      = (sgn, d :: (ds' ++ rest)) := by
    cases sgn
    · simpa using splitSign_not_minus (ds' ++ rest) hdm
    · rfl
  have hip : (if d = '0' then ([d], ds' ++ rest) else (d :: (ds' ++ rest)).span isDigitCh)
      = (d :: ds', rest) := by
    by_cases h0 : d = '0'
    · rcases hlead with hlead | hlead
      · exact absurd (h0 ▸ rfl) (hlead ds')
      · have hnil : ds' = [] := by
          have := congrArg List.tail hlead
          simpa using this
        subst hnil
        simp [h0]
    · rw [if_neg h0]
      exact span_digits (d :: ds') rest hds
        (fun c t hct => by subst hct; exact (numDelim_head hrest).1)
  rw [parseNum]
  simp only [hsgn, hip, spanFrac_delim rest hrest, spanExp_delim rest hrest, hd,
    if_pos, List.isEmpty_nil, and_self, if_true]

/-- `parseNum` inverts the int printer whenever a delimiter follows. -/
theorem parseNum_intChars (i : Int) (rest : List Char) (hrest : numDelim rest = true) :
    parseNum (intChars i ++ rest) = some (.jint i, rest) := by
  by_cases hneg : i < 0
  · have h1 : intChars i = '-' :: natChars i.natAbs [] := by rw [intChars, if_pos hneg]
    obtain ⟨c, t, hct, hd, h0⟩ := natChars_pos_head i.natAbs (by omega)
    have hlead : ∀ t', ¬natChars i.natAbs [] = '0' :: t' := by
      intro t' hc
      rw [hct] at hc
      injection hc with hc1 hc2
      exact h0 hc1
    have hrun := parseNum_digit_run true (natChars i.natAbs []) rest
      (natChars_digits _) (natChars_ne_nil _) (Or.inl hlead) hrest
    rw [h1]
    rw [show ('-' :: natChars i.natAbs []) ++ rest
        = (if true then ['-'] else []) ++ natChars i.natAbs [] ++ rest from by simp] at *
    rw [hrun, digitsVal_natChars]
    have hval : ((if (true : Bool) then (-1 : Int) else 1) * (i.natAbs : Int)) = i := by
      rw [if_pos rfl]
      omega
    rw [hval]
  · by_cases h0 : i = 0
    · subst h0
      have hrun := parseNum_digit_run false ['0'] rest
        (by intro c hc; rcases List.mem_singleton.mp hc with rfl; rfl)
        (by simp) (Or.inr rfl) hrest
      simpa [intChars, natChars, digitChar] using hrun
    · obtain ⟨c, t, hct, hd, hz⟩ := natChars_pos_head i.natAbs (by omega)
      have hlead : ∀ t', ¬natChars i.natAbs [] = '0' :: t' := by
        intro t' hc
        rw [hct] at hc
        injection hc with hc1 hc2
        exact hz hc1
      have hrun := parseNum_digit_run false (natChars i.natAbs []) rest
        (natChars_digits _) (natChars_ne_nil _) (Or.inl hlead) hrest
      rw [show intChars i = natChars i.natAbs [] from by rw [intChars, if_neg hneg]]
      rw [show natChars i.natAbs [] ++ rest
          = (if false then ['-'] else []) ++ natChars i.natAbs [] ++ rest from by simp] at *
      rw [hrun, digitsVal_natChars]
      have hval : ((if (false : Bool) then (-1 : Int) else 1) * (i.natAbs : Int)) = i := by
        rw [if_neg Bool.false_ne_true]
        omega
      rw [hval]

/-! ### The string codec -/

theorem charOf?_toNat (c : Char) : charOf? c.toNat = some c := by
  have hv : c.toNat.isValidChar := c.valid
  rw [charOf?, dif_pos hv]
  rfl

theorem strStep_quote (rest : List Char) : strStep ('"' :: rest) = some (.done, rest) := rfl

/-- One loop step of the scanner undoes the escaping of one character. -/
theorem strStep_escChar (c : Char) (rest : List Char) :
    strStep (escChar c ++ rest) = some (.ch c, rest) := by
  rw [escChar]
  split_ifs with h1 h2 h3 h4 h5 h6 h7 h8
  · subst h1; rfl
  · subst h2; rfl
  · subst h3; rfl
  · subst h4; rfl
  · subst h5; rfl
  · subst h6; rfl
  · subst h7; rfl
  · have hd16 : c.toNat / 16 < 16 := by omega
    have hm16 : c.toNat % 16 < 16 := by omega
    have hx1 : hexv (hexChar (c.toNat / 16)) = some (c.toNat / 16) :=
      hexChar_spec ⟨c.toNat / 16, hd16⟩
    have hx2 : hexv (hexChar (c.toNat % 16)) = some (c.toNat % 16) :=
      hexChar_spec ⟨c.toNat % 16, hm16⟩
    have hx : hex4 '0' '0' (hexChar (c.toNat / 16)) (hexChar (c.toNat % 16))
        = some c.toNat := by
      rw [hex4]
      rw [show hexv '0' = some 0 from rfl, hx1, hx2]
      show some (((0 * 16 + 0) * 16 + c.toNat / 16) * 16 + c.toNat % 16) = some c.toNat
      congr 1
      omega
    show decodeU '0' '0' (hexChar (c.toNat / 16)) (hexChar (c.toNat % 16)) rest
      = some (.ch c, rest)
    rw [decodeU, hx]
    show (if 0xD800 ≤ c.toNat ∧ c.toNat ≤ 0xDBFF then decodeSurrogate c.toNat rest
      else (charOf? c.toNat).map fun ch => (.ch ch, rest)) = some (.ch c, rest)
    rw [if_neg (by omega), charOf?_toNat]
    rfl
  · show strStepC c rest = some (.ch c, rest)
    rw [strStepC, if_neg h1, if_neg h2, if_neg (by omega)]

/-- With enough fuel, the scanner consumes an escaped body and its closing
quote, returning the unescaped characters. -/
theorem strLoop_escList : ∀ (cs : List Char) (fuel : Nat) (acc rest : List Char),
    cs.length < fuel →
    strLoop fuel acc (escList cs ++ ('"' :: rest)) = some (⟨acc.reverse ++ cs⟩, rest)
  | [], fuel, acc, rest, h => by
    obtain ⟨f, rfl⟩ : ∃ f, fuel = f + 1 := ⟨fuel - 1, by omega⟩
    show strLoop (f + 1) acc ('"' :: rest) = _
    rw [strLoop, strStep_quote]
    simp
  | c :: cs, fuel, acc, rest, h => by
    obtain ⟨f, rfl⟩ : ∃ f, fuel = f + 1 := ⟨fuel - 1, by omega⟩
    rw [escList, List.append_assoc, strLoop, strStep_escChar]
    show strLoop f (c :: acc) (escList cs ++ ('"' :: rest)) = _
    rw [strLoop_escList cs f (c :: acc) rest (by simp at h; omega)]
    simp

theorem escChar_length_pos (c : Char) : 1 ≤ (escChar c).length := by
  rw [escChar]
  split_ifs <;> simp

theorem escList_length_ge : ∀ cs : List Char, cs.length ≤ (escList cs).length
  | [] => le_refl 0
  | c :: cs => by
    rw [escList]
    simp only [List.length_append, List.length_cons]
    have h1 := escChar_length_pos c
    have h2 := escList_length_ge cs
    omega

/-- The parser inverts the string printer: quote, escaped body, quote. -/
theorem parseStrAux_strChars (s : String) (rest : List Char) :
    parseStrAux [] (escList s.data ++ ('"' :: rest)) = some (s, rest) := by
  rw [parseStrAux, strLoop_escList s.data _ [] rest (by
    simp only [List.length_append, List.length_cons]
    have := escList_length_ge s.data
    omega)]
  cases s
  simp

/-! ### Round-tripping: the decoder inverts the serializer -/

theorem wsSkip_nows (c : Char) (l : List Char) (h : isJsonWs c = false) :
    wsSkip (c :: l) = c :: l := by
  simp [wsSkip, List.dropWhile_cons, h]

theorem wsSkip_ws (c : Char) (l : List Char) (h : isJsonWs c = true) :
    wsSkip (c :: l) = wsSkip l := by
  simp [wsSkip, List.dropWhile_cons, h]

theorem afterLit_append : ∀ (ls rest : List Char), afterLit ls (ls ++ rest) = some rest
  | [], rest => rfl
  | l :: ls, rest => by
    show (if l = l then afterLit ls (ls ++ rest) else none) = some rest
    rw [if_pos rfl, afterLit_append ls rest]

/-- `parseVal` with fuel left and a nonempty input after whitespace is the
first-character dispatch of `_scan_once`. -/
theorem parseVal_cons (fuel : Nat) (cs : List Char) (c : Char) (r : List Char)
    (h : wsSkip cs = c :: r) :
    parseVal (fuel + 1) cs =
      (if c = '"' then
        (match parseStrAux [] r with
         | some (s, r') => some (.jstr s, r')
         | none => none)
      else if c = '{' then
        (match wsSkip r with
         | '}' :: r' => some (.jobj [], r')
         | cs' =>
           match parseMembers fuel cs' with
           | some (ms, r') => some (.jobj (pyDict ms), r')
           | none => none)
      else if c = '[' then
        (match wsSkip r with
         | ']' :: r' => some (.jarr [], r')
         | cs' =>
           match parseElems fuel cs' with
           | some (xs, r') => some (.jarr xs, r')
           | none => none)
      else if c = 'n' then
        (match afterLit ['u', 'l', 'l'] r with
         | some r' => some (.jnull, r')
         | none => none)
      else if c = 't' then
        (match afterLit ['r', 'u', 'e'] r with
         | some r' => some (.jbool true, r')
         | none => none)
      else if c = 'f' then
        (match afterLit ['a', 'l', 's', 'e'] r with
         | some r' => some (.jbool false, r')
         | none => none)
      else if c = '-' ∨ isDigitCh c then
        (match parseNum (c :: r) with
         | some vr => some vr
         | none =>
           if c = '-' then
             match afterLit ['I', 'n', 'f', 'i', 'n', 'i', 't', 'y'] r with
             | some r' => some (.jfloat "-Infinity", r')
             | none => none
           else none)
      else if c = 'N' then
        (match afterLit ['a', 'N'] r with
         | some r' => some (.jfloat "NaN", r')
         | none => none)
      else if c = 'I' then
        (match afterLit ['n', 'f', 'i', 'n', 'i', 't', 'y'] r with
         | some r' => some (.jfloat "Infinity", r')
         | none => none)
      else none) := by
  rw [parseVal, h]

/-- A decimal digit is no JSON whitespace, no structural character and no
literal-constant head. -/
theorem isDigitCh_facts (c : Char) (h : isDigitCh c = true) :
    isJsonWs c = false ∧ ¬c = '"' ∧ ¬c = '{' ∧ ¬c = '[' ∧ ¬c = 'n' ∧ ¬c = 't'
      ∧ ¬c = 'f' ∧ ¬c = ']' ∧ ¬c = '-' := by
  have h48 := isDigitCh_toNat h
  refine ⟨?_, char_ne_of_toNat (show ¬c.toNat = 34 by omega),
    char_ne_of_toNat (show ¬c.toNat = 123 by omega),
    char_ne_of_toNat (show ¬c.toNat = 91 by omega),
    char_ne_of_toNat (show ¬c.toNat = 110 by omega),
    char_ne_of_toNat (show ¬c.toNat = 116 by omega),
    char_ne_of_toNat (show ¬c.toNat = 102 by omega),
    char_ne_of_toNat (show ¬c.toNat = 93 by omega),
    char_ne_of_toNat (show ¬c.toNat = 45 by omega)⟩
  have h32 : ¬c = ' ' := char_ne_of_toNat (show ¬c.toNat = 32 by omega)
  have h9 : ¬c = '\t' := char_ne_of_toNat (show ¬c.toNat = 9 by omega)
  have h10 : ¬c = '\n' := char_ne_of_toNat (show ¬c.toNat = 10 by omega)
  have h13 : ¬c = '\r' := char_ne_of_toNat (show ¬c.toNat = 13 by omega)
  simp [isJsonWs, h32, h9, h10, h13]

theorem dumpsV_jstr (s : String) : dumpsV (.jstr s) = strChars s := rfl

theorem dumpsV_jint (i : Int) : dumpsV (.jint i) = intChars i := rfl

theorem dumpsV_jarr_cons (x : JVal) (xs : List JVal) :
    dumpsV (.jarr (x :: xs)) = '[' :: (dumpsV x ++ dumpsTailE xs ++ [']']) := rfl

theorem dumpsV_jobj_cons (k : String) (v : JVal) (ms : List (String × JVal)) :
    dumpsV (.jobj ((k, v) :: ms))
      = '{' :: (strChars k ++ ':' :: ' ' :: dumpsV v ++ dumpsTailM ms ++ ['}']) := rfl

/-- The first character of a dumped value: never whitespace, never a
closing bracket. -/
theorem dumpsV_head (v : JVal) (hv : Tidy v) :
    ∃ c t, dumpsV v = c :: t ∧ isJsonWs c = false ∧ ¬c = ']' := by
  cases hv with
  | jnull => exact ⟨'n', _, rfl, by decide, by decide⟩
  | jbool b =>
    cases b
    · exact ⟨'f', _, rfl, by decide, by decide⟩
    · exact ⟨'t', _, rfl, by decide, by decide⟩
  | jint i =>
    by_cases hneg : i < 0
    · exact ⟨'-', _, by rw [dumpsV_jint, intChars, if_pos hneg], by decide, by decide⟩
    · rcases hnc : natChars i.natAbs [] with - | ⟨c, t⟩
      · exact absurd hnc (natChars_ne_nil _)
      · have hd : isDigitCh c = true := natChars_digits _ c (hnc ▸ List.mem_cons_self _ _)
        obtain ⟨hws, -, -, -, -, -, -, hbr, -⟩ := isDigitCh_facts c hd
        exact ⟨c, t, by rw [dumpsV_jint, intChars, if_neg hneg, hnc], hws, hbr⟩
  | jstr s => exact ⟨'"', _, rfl, by decide, by decide⟩
  | jarr xs h1 =>
    cases xs
    · exact ⟨'[', _, rfl, by decide, by decide⟩
    · exact ⟨'[', _, rfl, by decide, by decide⟩
  | jobj ms h1 h2 =>
    rcases ms with - | ⟨⟨k, v⟩, ms⟩
    · exact ⟨'{', _, rfl, by decide, by decide⟩
    · exact ⟨'{', _, rfl, by decide, by decide⟩

theorem dumpsTailE_cons (x : JVal) (xs : List JVal) :
    dumpsTailE (x :: xs) = ',' :: ' ' :: (dumpsV x ++ dumpsTailE xs) := rfl

theorem dumpsTailM_cons (k : String) (v : JVal) (ms : List (String × JVal)) :
    dumpsTailM ((k, v) :: ms)
      = ',' :: ' ' :: (strChars k ++ ':' :: ' ' :: dumpsV v ++ dumpsTailM ms) := rfl

theorem wsSkip_strChars_append (k : String) (X : List Char) :
    wsSkip (strChars k ++ X) = strChars k ++ X := by
  rw [strChars, List.cons_append]
  exact wsSkip_nows '"' _ (by decide)

theorem wsSkip_dumpsV_append (v : JVal) (hv : Tidy v) (X : List Char) :
    wsSkip (dumpsV v ++ X) = dumpsV v ++ X := by
  obtain ⟨c, t, hct, hws, -⟩ := dumpsV_head v hv
  rw [hct, List.cons_append]
  exact wsSkip_nows c _ hws

theorem upsert_notmem (k : String) (v : JVal) :
    ∀ acc : List (String × JVal), k ∉ acc.map Prod.fst → upsert acc k v = acc ++ [(k, v)]
  | [], _ => rfl
  | (k', v') :: t, h => by
    have hne : ¬k' = k := by
      intro hk
      exact h (hk ▸ List.mem_map_of_mem Prod.fst (List.mem_cons_self _ _))
    show (if k' = k then (k', v) :: t else (k', v') :: upsert t k v) = _
    rw [if_neg hne, upsert_notmem k v t (fun hm => h (List.mem_cons_of_mem _ hm)),
      List.cons_append]

theorem pyDict_go : ∀ (ms acc : List (String × JVal)),
    ((acc ++ ms).map Prod.fst).Nodup →
    ms.foldl (fun a kv => upsert a kv.1 kv.2) acc = acc ++ ms
  | [], acc, _ => by simp
  | (k, v) :: t, acc, h => by
    have hmem : k ∉ acc.map Prod.fst := by
      rw [List.map_append] at h
      intro hk
      exact (List.disjoint_of_nodup_append h) hk
        (by simp only [List.map_cons]; exact List.mem_cons_self _ _)
    rw [List.foldl_cons]
    show List.foldl (fun a kv => upsert a kv.1 kv.2) (upsert acc k v) t = _
    rw [upsert_notmem k v acc hmem, pyDict_go t (acc ++ [(k, v)]) (by
      rw [List.append_assoc]
      simpa using h)]
    simp

/-- On an association list with pairwise-distinct keys, `dict(pairs)` is
the identity. -/
theorem pyDict_nodup (ms : List (String × JVal)) (h : (ms.map Prod.fst).Nodup) :
    pyDict ms = ms := by
  have hgo := pyDict_go ms [] (by simpa using h)
  simpa [pyDict] using hgo

/-- All three decoders invert the corresponding printers, for values of
bounded size: the bound drives the induction. -/
theorem rt_bundle : ∀ N : Nat,
    (∀ v, Tidy v → ∀ fuel cs rest, sizeOf v ≤ N →
      (dumpsV v).length < fuel →
      wsSkip cs = dumpsV v ++ rest → numDelim rest = true →
      parseVal fuel cs = some (v, rest))
    ∧ (∀ x xs, Tidy x → (∀ y ∈ xs, Tidy y) → ∀ fuel cs rest, sizeOf (x :: xs) ≤ N →
      (dumpsV x).length + (dumpsTailE xs).length + 1 < fuel →
      wsSkip cs = dumpsV x ++ (dumpsTailE xs ++ (']' :: rest)) →
      parseElems fuel cs = some (x :: xs, rest))
    ∧ (∀ k v ms, Tidy v → (∀ kv ∈ ms, Tidy kv.2) → ∀ fuel cs rest,
      sizeOf ((k, v) :: ms) ≤ N →
      (dumpsV v).length + (dumpsTailM ms).length + 1 < fuel →
      wsSkip cs = strChars k
        ++ (':' :: ' ' :: (dumpsV v ++ (dumpsTailM ms ++ ('}' :: rest)))) →
      parseMembers fuel cs = some ((k, v) :: ms, rest)) := by
  intro N
  induction N with
  | zero =>
    exact ⟨fun v hv fuel cs rest hN => absurd hN (by cases v <;> simp_arith),
      fun x xs hx hxs fuel cs rest hN => absurd hN (by simp_arith),
      fun k v ms hv hms fuel cs rest hN => absurd hN (by simp_arith)⟩
  | succ n ih =>
    obtain ⟨ihV, ihE, ihM⟩ := ih
    refine ⟨?_, ?_, ?_⟩
    · intro v hv fuel cs rest hN hfuel hcs hrest
      obtain ⟨f, rfl⟩ : ∃ f, fuel = f + 1 := ⟨fuel - 1, by omega⟩
      cases hv with
      | jnull =>
        have hcs' : wsSkip cs = 'n' :: (['u', 'l', 'l'] ++ rest) := hcs
        rw [parseVal_cons f cs 'n' _ hcs', if_neg (by decide), if_neg (by decide),
          if_neg (by decide), if_pos rfl, afterLit_append]
      | jbool b =>
        cases b with
        | false =>
          have hcs' : wsSkip cs = 'f' :: (['a', 'l', 's', 'e'] ++ rest) := hcs
          rw [parseVal_cons f cs 'f' _ hcs', if_neg (by decide), if_neg (by decide),
            if_neg (by decide), if_neg (by decide), if_neg (by decide), if_pos rfl,
            afterLit_append]
        | true =>
          have hcs' : wsSkip cs = 't' :: (['r', 'u', 'e'] ++ rest) := hcs
          rw [parseVal_cons f cs 't' _ hcs', if_neg (by decide), if_neg (by decide),
            if_neg (by decide), if_neg (by decide), if_pos rfl, afterLit_append]
      | jint i =>
        by_cases hneg : i < 0
        · have hic : intChars i = '-' :: natChars i.natAbs [] := by
            rw [intChars, if_pos hneg]
          have hcs' : wsSkip cs = '-' :: (natChars i.natAbs [] ++ rest) := by
            rw [hcs, dumpsV_jint, hic, List.cons_append]
          have hpn : parseNum ('-' :: (natChars i.natAbs [] ++ rest))
              = some (.jint i, rest) := by
            have h2 := parseNum_intChars i rest hrest
            rw [hic, List.cons_append] at h2
            exact h2
          rw [parseVal_cons f cs '-' _ hcs', if_neg (by decide), if_neg (by decide),
            if_neg (by decide), if_neg (by decide), if_neg (by decide),
            if_neg (by decide), if_pos (Or.inl rfl), hpn]
        · rcases hnc : natChars i.natAbs [] with - | ⟨c, t⟩
          · exact absurd hnc (natChars_ne_nil _)
          · have hd : isDigitCh c = true :=
              natChars_digits _ c (hnc ▸ List.mem_cons_self _ _)
            obtain ⟨hws, hq, hbc, hbk, hn, ht, hf, -, -⟩ := isDigitCh_facts c hd
            have hic : intChars i = c :: t := by rw [intChars, if_neg hneg, hnc]
            have hcs' : wsSkip cs = c :: (t ++ rest) := by
              rw [hcs, dumpsV_jint, hic, List.cons_append]
            have hpn : parseNum (c :: (t ++ rest)) = some (.jint i, rest) := by
              have h2 := parseNum_intChars i rest hrest
              rw [hic, List.cons_append] at h2
              exact h2
            rw [parseVal_cons f cs c _ hcs', if_neg hq, if_neg hbc, if_neg hbk,
              if_neg hn, if_neg ht, if_neg hf, if_pos (Or.inr hd), hpn]
      | jstr s =>
        have hcs' : wsSkip cs = '"' :: (escList s.data ++ ('"' :: rest)) := by
          rw [hcs, dumpsV_jstr, strChars]
          simp
        rw [parseVal_cons f cs '"' _ hcs', if_pos rfl, parseStrAux_strChars]
      | jarr xs h1 =>
        cases xs with
        | nil =>
          have hcs' : wsSkip cs = '[' :: (']' :: rest) := hcs
          rw [parseVal_cons f cs '[' _ hcs', if_neg (by decide), if_neg (by decide),
            if_pos rfl, wsSkip_nows ']' rest (by decide)]
          rfl
        | cons x xs' =>
          have hx : Tidy x := h1 x (List.mem_cons_self _ _)
          have hxs' : ∀ y ∈ xs', Tidy y := fun y hy => h1 y (List.mem_cons_of_mem _ hy)
          have hcs' : wsSkip cs
              = '[' :: (dumpsV x ++ (dumpsTailE xs' ++ (']' :: rest))) := by
            rw [hcs, dumpsV_jarr_cons]
            simp
          rw [parseVal_cons f cs '[' _ hcs', if_neg (by decide), if_neg (by decide),
            if_pos rfl, wsSkip_dumpsV_append x hx _]
          split
          · rename_i r' heq
            obtain ⟨c0, t0, hct0, -, hbr0⟩ := dumpsV_head x hx
            rw [hct0, List.cons_append] at heq
            injection heq with heq1 heq2
            exact absurd heq1 hbr0
          · have hsz : sizeOf (x :: xs') ≤ n := by
              simp only [JVal.jarr.sizeOf_spec] at hN
              omega
            have hb : (dumpsV x).length + (dumpsTailE xs').length + 1 < f := by
              rw [dumpsV_jarr_cons] at hfuel
              simp only [List.length_cons, List.length_append,
                List.length_singleton] at hfuel
              omega
            rw [ihE x xs' hx hxs' f _ rest hsz hb (wsSkip_dumpsV_append x hx _)]
      | jobj ms h1 h2 =>
        rcases ms with - | ⟨⟨k, v0⟩, ms'⟩
        · have hcs' : wsSkip cs = '{' :: ('}' :: rest) := hcs
          rw [parseVal_cons f cs '{' _ hcs', if_neg (by decide), if_pos rfl,
            wsSkip_nows '}' rest (by decide)]
          rfl
        · have hv0 : Tidy v0 := h2 (k, v0) (List.mem_cons_self _ _)
          have hms' : ∀ kv ∈ ms', Tidy kv.2 :=
            fun kv hm => h2 kv (List.mem_cons_of_mem _ hm)
          have hcs' : wsSkip cs = '{' :: (strChars k
              ++ (':' :: ' ' :: (dumpsV v0 ++ (dumpsTailM ms' ++ ('}' :: rest))))) := by
            rw [hcs, dumpsV_jobj_cons]
            simp
          rw [parseVal_cons f cs '{' _ hcs', if_neg (by decide), if_pos rfl,
            wsSkip_strChars_append k _]
          split
          · rename_i r' heq
            rw [strChars, List.cons_append] at heq
            injection heq with heq1 heq2
            exact absurd heq1 (by decide)
          · have hsz : sizeOf ((k, v0) :: ms') ≤ n := by
              simp only [JVal.jobj.sizeOf_spec] at hN
              omega
            have hb : (dumpsV v0).length + (dumpsTailM ms').length + 1 < f := by
              rw [dumpsV_jobj_cons] at hfuel
              simp only [List.length_cons, List.length_append,
                List.length_singleton] at hfuel
              omega
            rw [ihM k v0 ms' hv0 hms' f _ rest hsz hb (wsSkip_strChars_append k _)]
            show some (JVal.jobj (pyDict ((k, v0) :: ms')), rest)
              = some (JVal.jobj ((k, v0) :: ms'), rest)
            rw [pyDict_nodup ((k, v0) :: ms') h1]
    · intro x xs hx hxs fuel cs rest hN hfuel hcs
      obtain ⟨f, rfl⟩ : ∃ f, fuel = f + 1 := ⟨fuel - 1, by omega⟩
      have hrest1 : numDelim (dumpsTailE xs ++ (']' :: rest)) = true := by
        cases xs
        · rfl
        · rfl
      have hszx : sizeOf x ≤ n := by
        simp only [List.cons.sizeOf_spec] at hN
        omega
      rw [parseElems, ihV x hx f cs (dumpsTailE xs ++ (']' :: rest)) hszx
        (by omega) hcs hrest1]
      show (match wsSkip (dumpsTailE xs ++ (']' :: rest)) with
        | ',' :: r' =>
          (match parseElems f r' with
           | some (vs, r'') => some (x :: vs, r'')
           | none => none)
        | ']' :: r' => some ([x], r')
        | _ => none) = some (x :: xs, rest)
      cases xs with
      | nil =>
        rw [show dumpsTailE [] ++ (']' :: rest) = ']' :: rest from rfl,
          wsSkip_nows ']' rest (by decide)]
        rfl
      | cons y ys =>
        have hy : Tidy y := hxs y (List.mem_cons_self _ _)
        have hys : ∀ z ∈ ys, Tidy z := fun z hz => hxs z (List.mem_cons_of_mem _ hz)
        rw [show dumpsTailE (y :: ys) ++ (']' :: rest)
            = ',' :: ' ' :: ((dumpsV y ++ dumpsTailE ys) ++ (']' :: rest)) from rfl,
          wsSkip_nows ',' _ (by decide)]
        show (match parseElems f
            (' ' :: ((dumpsV y ++ dumpsTailE ys) ++ (']' :: rest))) with
          | some (vs, r'') => some (x :: vs, r'')
          | none => none) = some (x :: (y :: ys), rest)
        have hszy : sizeOf (y :: ys) ≤ n := by
          simp only [List.cons.sizeOf_spec] at hN ⊢
          omega
        have hb : (dumpsV y).length + (dumpsTailE ys).length + 1 < f := by
          rw [dumpsTailE_cons] at hfuel
          simp only [List.length_cons, List.length_append] at hfuel
          omega
        have hcs2 : wsSkip (' ' :: ((dumpsV y ++ dumpsTailE ys) ++ (']' :: rest)))
            = dumpsV y ++ (dumpsTailE ys ++ (']' :: rest)) := by
          rw [wsSkip_ws ' ' _ (by decide), List.append_assoc]
          exact wsSkip_dumpsV_append y hy _
        rw [ihE y ys hy hys f _ rest hszy hb hcs2]
    · intro k v ms hv hms fuel cs rest hN hfuel hcs
      obtain ⟨f, rfl⟩ : ∃ f, fuel = f + 1 := ⟨fuel - 1, by omega⟩
      rw [parseMembers, hcs, strChars, List.cons_append]
      show (match parseStrAux [] ((escList k.data ++ ['"'])
          ++ (':' :: ' ' :: (dumpsV v ++ (dumpsTailM ms ++ ('}' :: rest))))) with
        | none => none
        | some (k1, r1) =>
          match wsSkip r1 with
          | ':' :: r2 =>
            (match parseVal f r2 with
             | none => none
             | some (v1, r3) =>
               match wsSkip r3 with
               | ',' :: r4 =>
                 (match parseMembers f r4 with
                  | some (ms1, r5) => some ((k1, v1) :: ms1, r5)
                  | none => none)
               | '}' :: r4 => some ([(k1, v1)], r4)
               | _ => none)
          | _ => none) = some ((k, v) :: ms, rest)
      have hps : parseStrAux [] ((escList k.data ++ ['"'])
          ++ (':' :: ' ' :: (dumpsV v ++ (dumpsTailM ms ++ ('}' :: rest)))))
          = some (k, ':' :: ' ' :: (dumpsV v ++ (dumpsTailM ms ++ ('}' :: rest)))) := by
        rw [List.append_assoc]
        exact parseStrAux_strChars k _
      rw [hps]
      show (match wsSkip (':' :: ' ' :: (dumpsV v ++ (dumpsTailM ms ++ ('}' :: rest)))) with
        | ':' :: r2 =>
          (match parseVal f r2 with
           | none => none
           | some (v1, r3) =>
             match wsSkip r3 with
             | ',' :: r4 =>
               (match parseMembers f r4 with
                | some (ms1, r5) => some ((k, v1) :: ms1, r5)
                | none => none)
             | '}' :: r4 => some ([(k, v1)], r4)
             | _ => none)
        | _ => none) = some ((k, v) :: ms, rest)
      rw [wsSkip_nows ':' _ (by decide)]
      show (match parseVal f (' ' :: (dumpsV v ++ (dumpsTailM ms ++ ('}' :: rest)))) with
        | none => none
        | some (v1, r3) =>
          match wsSkip r3 with
          | ',' :: r4 =>
            (match parseMembers f r4 with
             | some (ms1, r5) => some ((k, v1) :: ms1, r5)
             | none => none)
          | '}' :: r4 => some ([(k, v1)], r4)
          | _ => none) = some ((k, v) :: ms, rest)
      have hnd : numDelim (dumpsTailM ms ++ ('}' :: rest)) = true := by
        rcases ms with - | ⟨⟨k2, v2⟩, ms'⟩
        · rfl
        · rfl
      have hcs2 : wsSkip (' ' :: (dumpsV v ++ (dumpsTailM ms ++ ('}' :: rest))))
          = dumpsV v ++ (dumpsTailM ms ++ ('}' :: rest)) := by
        rw [wsSkip_ws ' ' _ (by decide)]
        exact wsSkip_dumpsV_append v hv _
      have hszv : sizeOf v ≤ n := by
        simp only [List.cons.sizeOf_spec, Prod.mk.sizeOf_spec] at hN
        omega
      rw [ihV v hv f _ _ hszv (by omega) hcs2 hnd]
      show (match wsSkip (dumpsTailM ms ++ ('}' :: rest)) with
        | ',' :: r4 =>
          (match parseMembers f r4 with
           | some (ms1, r5) => some ((k, v) :: ms1, r5)
           | none => none)
        | '}' :: r4 => some ([(k, v)], r4)
        | _ => none) = some ((k, v) :: ms, rest)
      rcases ms with - | ⟨⟨k2, v2⟩, ms'⟩
      · rw [show dumpsTailM [] ++ ('}' :: rest) = '}' :: rest from rfl,
          wsSkip_nows '}' rest (by decide)]
        rfl
      · have hv2 : Tidy v2 := hms (k2, v2) (List.mem_cons_self _ _)
        have hms' : ∀ kv ∈ ms', Tidy kv.2 :=
          fun kv hm => hms kv (List.mem_cons_of_mem _ hm)
        rw [show dumpsTailM ((k2, v2) :: ms') ++ ('}' :: rest)
            = ',' :: ' ' :: (strChars k2 ++ (':' :: ' ' :: (dumpsV v2
              ++ (dumpsTailM ms' ++ ('}' :: rest))))) from by
            rw [dumpsTailM_cons]
            simp [List.append_assoc],
          wsSkip_nows ',' _ (by decide)]
        show (match parseMembers f (' ' :: (strChars k2
            ++ (':' :: ' ' :: (dumpsV v2 ++ (dumpsTailM ms' ++ ('}' :: rest)))))) with
          | some (ms1, r5) => some ((k, v) :: ms1, r5)
          | none => none) = some ((k, v) :: ((k2, v2) :: ms'), rest)
        have hsz2 : sizeOf ((k2, v2) :: ms') ≤ n := by
          simp only [List.cons.sizeOf_spec, Prod.mk.sizeOf_spec] at hN ⊢
          omega
        have hb : (dumpsV v2).length + (dumpsTailM ms').length + 1 < f := by
          rw [dumpsTailM_cons] at hfuel
          simp only [List.length_cons, List.length_append] at hfuel
          omega
        have hcs3 : wsSkip (' ' :: (strChars k2
            ++ (':' :: ' ' :: (dumpsV v2 ++ (dumpsTailM ms' ++ ('}' :: rest))))))
            = strChars k2
              ++ (':' :: ' ' :: (dumpsV v2 ++ (dumpsTailM ms' ++ ('}' :: rest)))) := by
          rw [wsSkip_ws ' ' _ (by decide)]
          exact wsSkip_strChars_append k2 _
        rw [ihM k2 v2 ms' hv2 hms' f _ rest hsz2 hb hcs3]

/-- The decoder parses a dumped value back, leaving exactly the rest,
whenever the rest starts with a delimiter and the fuel covers the
consumed text. -/
theorem parseVal_rt (v : JVal) (hv : Tidy v) (fuel : Nat) (cs rest : List Char)
    (hfuel : (dumpsV v).length < fuel)
    (hcs : wsSkip cs = dumpsV v ++ rest) (hrest : numDelim rest = true) :
    parseVal fuel cs = some (v, rest) :=
  (rt_bundle (sizeOf v)).1 v hv fuel cs rest (le_refl _) hfuel hcs hrest

/-! ### The dumped text never contains a newline, so one event is one line -/

theorem newline_not_escChar (c : Char) : '\n' ∉ escChar c := by
  have hx : ∀ m : Fin 16, ¬('\n' = hexChar m.val) := by decide
  rw [escChar]
  split_ifs with h1 h2 h3 h4 h5 h6 h7 h8
  · decide
  · decide
  · decide
  · decide
  · decide
  · decide
  · decide
  · intro hm
    simp only [List.mem_cons, List.not_mem_nil, or_false] at hm
    rcases hm with h | h | h | h | h | h
    · exact absurd h (by decide)
    · exact absurd h (by decide)
    · exact absurd h (by decide)
    · exact absurd h (by decide)
    · exact hx ⟨c.toNat / 16, by omega⟩ h
    · exact hx ⟨c.toNat % 16, by omega⟩ h
  · intro hm
    rcases List.mem_singleton.mp hm with rfl
    exact absurd (by decide) h8

theorem newline_not_escList : ∀ l : List Char, '\n' ∉ escList l
  | [] => by simp [escList]
  | c :: cs => by
    rw [escList]
    intro hm
    rcases List.mem_append.mp hm with h | h
    · exact newline_not_escChar c h
    · exact newline_not_escList cs h

theorem newline_not_strChars (k : String) : '\n' ∉ strChars k := by
  rw [strChars]
  intro hm
  rcases List.mem_cons.mp hm with h | h
  · exact absurd h (by decide)
  · rcases List.mem_append.mp h with h2 | h2
    · exact newline_not_escList k.data h2
    · rcases List.mem_singleton.mp h2 with h3
      exact absurd h3 (by decide)

theorem newline_not_natChars (n : Nat) : '\n' ∉ natChars n [] := fun hm =>
  absurd (natChars_digits n '\n' hm) (by decide)

theorem newline_not_intChars (i : Int) : '\n' ∉ intChars i := by
  rw [intChars]
  split_ifs with h
  · intro hm
    rcases List.mem_cons.mp hm with h2 | h2
    · exact absurd h2 (by decide)
    · exact newline_not_natChars _ h2
  · exact newline_not_natChars _

/-- No newline anywhere in dumped output, by induction on a size bound. -/
theorem newline_bundle : ∀ N : Nat,
    (∀ v, Tidy v → sizeOf v ≤ N → '\n' ∉ dumpsV v)
    ∧ (∀ xs : List JVal, (∀ x ∈ xs, Tidy x) → sizeOf xs ≤ N → '\n' ∉ dumpsTailE xs)
    ∧ (∀ ms : List (String × JVal), (∀ kv ∈ ms, Tidy kv.2) → sizeOf ms ≤ N →
        '\n' ∉ dumpsTailM ms) := by
  intro N
  induction N with
  | zero =>
    exact ⟨fun v hv hN => absurd hN (by cases v <;> simp_arith),
      fun xs hxs hN => absurd hN (by cases xs <;> simp_arith),
      fun ms hms hN => absurd hN (by cases ms <;> simp_arith)⟩
  | succ n ih =>
    obtain ⟨ihV, ihE, ihM⟩ := ih
    refine ⟨?_, ?_, ?_⟩
    · intro v hv hN
      cases hv with
      | jnull => decide
      | jbool b => cases b <;> decide
      | jint i => exact newline_not_intChars i
      | jstr s => exact newline_not_strChars s
      | jarr xs h1 =>
        cases xs with
        | nil => decide
        | cons x xs' =>
          rw [dumpsV_jarr_cons]
          simp only [JVal.jarr.sizeOf_spec, List.cons.sizeOf_spec] at hN
          intro hm
          rcases List.mem_cons.mp hm with h | h
          · exact absurd h (by decide)
          · rcases List.mem_append.mp h with h2 | h2
            · rcases List.mem_append.mp h2 with h3 | h3
              · exact ihV x (h1 x (List.mem_cons_self _ _)) (by omega) h3
              · exact ihE xs' (fun y hy => h1 y (List.mem_cons_of_mem _ hy)) (by omega) h3
            · rcases List.mem_singleton.mp h2 with h3
              exact absurd h3 (by decide)
      | jobj ms h1 h2 =>
        rcases ms with - | ⟨⟨k, v0⟩, ms'⟩
        · decide
        · rw [dumpsV_jobj_cons]
          simp only [JVal.jobj.sizeOf_spec, List.cons.sizeOf_spec,
            Prod.mk.sizeOf_spec] at hN
          intro hm
          rcases List.mem_cons.mp hm with h | h
          · exact absurd h (by decide)
          · rcases List.mem_append.mp h with hl | hl
            · rcases List.mem_append.mp hl with h3 | h3
              · rcases List.mem_append.mp h3 with h4 | h4
                · exact newline_not_strChars k h4
                · rcases List.mem_cons.mp h4 with h5 | h5
                  · exact absurd h5 (by decide)
                  · rcases List.mem_cons.mp h5 with h6 | h6
                    · exact absurd h6 (by decide)
                    · exact ihV v0 (h2 (k, v0) (List.mem_cons_self _ _)) (by omega) h6
              · exact ihM ms' (fun kv hkv => h2 kv (List.mem_cons_of_mem _ hkv))
                  (by omega) h3
            · rcases List.mem_singleton.mp hl with h3
              exact absurd h3 (by decide)
    · intro xs hxs hN
      cases xs with
      | nil => simp [dumpsTailE]
      | cons x xs' =>
        rw [dumpsTailE_cons]
        simp only [List.cons.sizeOf_spec] at hN
        intro hm
        rcases List.mem_cons.mp hm with h | h
        · exact absurd h (by decide)
        · rcases List.mem_cons.mp h with h2 | h2
          · exact absurd h2 (by decide)
          · rcases List.mem_append.mp h2 with h3 | h3
            · exact ihV x (hxs x (List.mem_cons_self _ _)) (by omega) h3
            · exact ihE xs' (fun y hy => hxs y (List.mem_cons_of_mem _ hy)) (by omega) h3
    · intro ms hms hN
      rcases ms with - | ⟨⟨k, v0⟩, ms'⟩
      · simp [dumpsTailM]
      · rw [dumpsTailM_cons]
        simp only [List.cons.sizeOf_spec, Prod.mk.sizeOf_spec] at hN
        intro hm
        rcases List.mem_cons.mp hm with h | h
        · exact absurd h (by decide)
        · rcases List.mem_cons.mp h with h2 | h2
          · exact absurd h2 (by decide)
          · rcases List.mem_append.mp h2 with h3 | h3
            · rcases List.mem_append.mp h3 with h4 | h4
              · exact newline_not_strChars k h4
              · rcases List.mem_cons.mp h4 with h5 | h5
                · exact absurd h5 (by decide)
                · rcases List.mem_cons.mp h5 with h6 | h6
                  · exact absurd h6 (by decide)
                  · exact ihV v0 (hms (k, v0) (List.mem_cons_self _ _)) (by omega) h6
            · exact ihM ms' (fun kv hkv => hms kv (List.mem_cons_of_mem _ hkv))
                (by omega) h3

theorem newline_not_dumpsV (v : JVal) (hv : Tidy v) : '\n' ∉ dumpsV v :=
  (newline_bundle (sizeOf v)).1 v hv (le_refl _)

/-! ### Assembling the round trip -/

/-- `json.loads` inverts `json.dumps` on the serializer's values. -/
theorem jsonParse_dumps (v : JVal) (hv : Tidy v) : jsonParse (jsonDumps v) = some v := by
  have h1 : parseVal ((jsonDumps v).data.length + 1) (jsonDumps v).data = some (v, []) := by
    apply parseVal_rt v hv
    · show (dumpsV v).length < (dumpsV v).length + 1
      omega
    · show wsSkip (dumpsV v) = dumpsV v ++ []
      rw [List.append_nil]
      obtain ⟨c, t, hct, hws, -⟩ := dumpsV_head v hv
      rw [hct]
      exact wsSkip_nows c t hws
    · rfl
  rw [jsonParse, h1]
  rfl

/-- The event dict is in the serializer's image: distinct keys, no floats. -/
theorem tidy_eventToJson (e : Event) : Tidy (eventToJson e) := by
  refine Tidy.jobj _ ?_ ?_
  · exact (by decide : (["timestamp_utc", "hostname", "username", "pid", "process_name",
      "cmdline", "signature_name", "signature_description", "risk", "category",
      "version", "product"] : List String).Nodup)
  · intro kv hkv
    simp only [List.mem_cons, List.not_mem_nil, or_false] at hkv
    rcases hkv with rfl | rfl | rfl | rfl | rfl | rfl | rfl | rfl | rfl | rfl | rfl | rfl
    · exact Tidy.jstr _
    · exact Tidy.jstr _
    · exact Tidy.jstr _
    · exact Tidy.jint _
    · exact Tidy.jstr _
    · exact Tidy.jarr _ (fun x hx => by
        obtain ⟨s, -, rfl⟩ := List.mem_map.mp hx
        exact Tidy.jstr s)
    · exact Tidy.jstr _
    · exact Tidy.jstr _
    · exact Tidy.jstr _
    · exact Tidy.jstr _
    · exact Tidy.jstr _
    · exact Tidy.jstr _

theorem dumpsV_jobj_head (k : String) (v : JVal) (ms : List (String × JVal)) :
    (dumpsV (.jobj ((k, v) :: ms))).head? = some '{' := by
  rw [dumpsV_jobj_cons]
  rfl

theorem dumpsV_jobj_last (k : String) (v : JVal) (ms : List (String × JVal)) :
    (dumpsV (.jobj ((k, v) :: ms))).getLast? = some '}' := by
  rw [dumpsV_jobj_cons, ← List.cons_append, List.getLast?_concat]

/-- `line.strip()` is the identity when neither end is whitespace. -/
theorem pstrip_id (l : List Char) (hh : ∀ c, l.head? = some c → isPySpace c = false)
    (hl : ∀ c, l.getLast? = some c → isPySpace c = false) :
    pstrip ⟨l⟩ = ⟨l⟩ := by
  cases l with
  | nil => rfl
  | cons c t =>
    have hc : isPySpace c = false := hh c rfl
    rw [pstrip]
    congr 1
    show (((c :: t).dropWhile isPySpace).reverse.dropWhile isPySpace).reverse = c :: t
    rw [List.dropWhile_cons, if_neg (by simp [hc])]
    rcases hrev : (c :: t).reverse with - | ⟨d, t2⟩
    · exact absurd hrev (by simp)
    · have hd : isPySpace d = false := by
        apply hl
        rw [← List.head?_reverse, hrev]
        rfl
      rw [List.dropWhile_cons, if_neg (by simp [hd]), ← hrev,
        List.reverse_reverse]

/-- C6: for every Event Record the agent constructs, serializing it with
`json.dumps` and reading the resulting log line back through the viewer's
loader yields the record unchanged, field for field; and the serialized
text contains no newline, so appending `"\n"` writes exactly one log
line. -/
theorem event_log_line_roundtrip (e : Event) :
    load_events [jsonDumps (eventToJson e)] = [eventToJson e]
      ∧ '\n' ∉ (jsonDumps (eventToJson e)).data := by
  have htidy := tidy_eventToJson e
  constructor
  · have hhead : (dumpsV (eventToJson e)).head? = some '{' := dumpsV_jobj_head _ _ _
    have hlast : (dumpsV (eventToJson e)).getLast? = some '}' := dumpsV_jobj_last _ _ _
    have hps : pstrip (jsonDumps (eventToJson e)) = jsonDumps (eventToJson e) := by
      apply pstrip_id
      · intro c hc
        rw [hc] at hhead
        injection hhead with h
        rw [h]
        decide
      · intro c hc
        rw [hc] at hlast
        injection hlast with h
        rw [h]
        decide
    have hne : ¬jsonDumps (eventToJson e) = "" := by
      intro h
      have hd := congrArg String.data h
      obtain ⟨c0, t0, hct, -, -⟩ := dumpsV_head _ htidy
      rw [show (jsonDumps (eventToJson e)).data = dumpsV (eventToJson e) from rfl,
        hct] at hd
      exact List.cons_ne_nil _ _ hd
    have hjp : jsonParse (jsonDumps (eventToJson e)) = some (eventToJson e) :=
      jsonParse_dumps _ htidy
    simp [load_events, hps, hne, hjp]
  · exact newline_not_dumpsV (eventToJson e) htidy

end Watchdog
